import Mathlib

/-!
Verification of the `onepass` deterministic password manager core
(crates `onepass-seed`, `onepass-base`).

Strings are modelled as lists of Unicode scalar values (`List Nat`); the
Rust code writes UTF-8 bytes, and UTF-8 encoding is an order-preserving
injection from scalar sequences to byte sequences, so equalities and
inequalities of rendered outputs transfer.  Where the code operates on raw
bytes (hashing, TSV records), we convert explicitly via `utf8Bytes`.

256-bit arithmetic (`crypto_bigint::U256`) is modelled as `Nat` with
explicit saturation at `2^256 - 1`; fallible or panicking code paths
(`unwrap`, `assert!`, checked arithmetic, `unreachable!`) are modelled with
`Option`, `none` meaning abort.
-/

namespace Onepass

abbrev Str := List Nat

/-- Convert a Lean string literal to its list of Unicode scalar values. -/
def str2n (s : String) : Str := s.data.map Char.toNat

/-- The `U256` modulus `2^256`. -/
def U256MOD : Nat := 2 ^ 256

/-- The largest `U256` value, at which arithmetic saturates. -/
def U256MAX : Nat := U256MOD - 1

/-- `U256::saturating_mul`. -/
def satMul (a b : Nat) : Nat := min (a * b) U256MAX

/-- Loop body of `u256_saturating_pow` (expr/util.rs): square-and-multiply
with saturating multiplication; the base is squared after each use.  The
exponent is a 64-bit `Word` in the source, so the `while n > 0` loop runs
at most 64 times; `fuel` counts the remaining iterations. -/
def u256SatPowGo : Nat → Nat → Nat → Nat → Nat
  | 0, res, _, _ => res
  | fuel + 1, res, base, n =>
    if n = 0 then res
    else u256SatPowGo fuel (if n % 2 = 1 then satMul res base else res) (satMul base base) (n / 2)

/-- `u256_saturating_pow` from expr/util.rs. -/
def u256SatPow (base n : Nat) : Nat :=
  if n = 0 then 1 else u256SatPowGo 64 1 base n

/-- A character range `CharRange` (expr/chars.rs): a closed interval of
Unicode scalar values; `last` is the field called `end` in the source. -/
structure CRange where
  start : Nat
  last : Nat
deriving DecidableEq, Repr

/-- Whether `c` is a Unicode scalar value (what `char::from_u32` accepts). -/
def isScalar (c : Nat) : Bool := c < 0x110000 && !(0xD800 ≤ c && c < 0xE000)

/-- `CharRange::size`: panics (`none`) when `start > end`; subtracts the
surrogate block when the interval straddles it. -/
def CRange.rsize (r : CRange) : Option Nat :=
  if r.start ≤ r.last then
    let count := r.last - r.start + 1
    some (if r.start < 0xD800 ∧ 0xE000 ≤ r.last then count - 0x800 else count)
  else none

/-- `CharRange::nth`: the `n`-th scalar of the range, skipping the
surrogate block; `char::from_u32(..).unwrap()` and the `res <= end`
assertion are modelled as `none`. -/
def CRange.nth (r : CRange) (n : Nat) : Option Nat :=
  let res := r.start + n
  let res := if r.start < 0xD800 ∧ 0xD800 ≤ res then res + 0x800 else res
  if isScalar res ∧ res ≤ r.last then some res else none

/-- `Chars::size`: the sum of the range sizes (panics propagate). -/
def charsSumSize : List CRange → Option Nat
  | [] => some 0
  | r :: rs => do
    let s ← r.rsize
    let t ← charsSumSize rs
    some (s + t)

/-- `Chars::nth`: walk the ranges, subtracting sizes; falling off the end
is `unreachable!()`, i.e. `none`. -/
def charsNth : List CRange → Nat → Option Nat
  | [], _ => none
  | r :: rs, n => do
    let sz ← r.rsize
    if n < sz then r.nth n else charsNth rs (n - sz)

/-- `next_char` from expr/chars.rs, including the `'\u{d799}' => 0xe00`
match arm exactly as written in the source. -/
def nextChar (c : Nat) : Option Nat :=
  let v := if c = 0xD799 then 0xE00 else c + 1
  if isScalar v then some v else none

/-- Swap two positions of a list (models `Vec::swap` on valid indices). -/
def listSwap (l : List CRange) (i j : Nat) : List CRange :=
  match l[i]?, l[j]? with
  | some a, some b => (l.set i b).set j a
  | _, _ => l

/-- The merge loop of `Chars::from_ranges` (expr/chars.rs lines 42-59):
indices `i`, `j` into the sorted vector; on `next_char` returning `None`
the loop `break`s; afterwards `ranges.drain(i + 1..)` keeps the first
`i + 1` elements.  `j` grows by one per iteration and the loop stops at
`j = length`, so `fuel = length` iterations always suffice. -/
def fromRangesLoop : Nat → List CRange → Nat → Nat → List CRange
  | 0, rs, i, _ => rs.take (i + 1)
  | fuel + 1, rs, i, j =>
    if j < rs.length then
      match nextChar ((rs.getD i ⟨0, 0⟩).last) with
      | none => rs.take (i + 1)
      | some next =>
        if (rs.getD j ⟨0, 0⟩).start ≤ next then
          fromRangesLoop fuel
            (rs.set i ⟨(rs.getD i ⟨0, 0⟩).start,
                       max (rs.getD i ⟨0, 0⟩).last (rs.getD j ⟨0, 0⟩).last⟩)
            i (j + 1)
        else
          fromRangesLoop fuel (if j ≠ i + 1 then listSwap rs (i + 1) j else rs) (i + 1) (j + 1)
    else rs.take (i + 1)

/-- `Chars::from_ranges`: sort by range start, then merge/coalesce.
The source uses `sort_unstable_by` on starts; we model it with an
insertion sort keyed on `start`, which agrees whenever starts are
distinct. -/
def fromRanges (rs : List CRange) : List CRange :=
  fromRangesLoop rs.length (rs.insertionSort (fun a b => a.start ≤ b.start)) 0 1

/-- The AST `Node` (expr/node.rs).  `generator` holds the raw generator
text (the `Box<str>` inside `Generator`), as a list of scalars. -/
inductive Node where
  | literal : Str → Node
  | chars : List CRange → Node
  | list : List Node → Node
  | count : Node → Nat → Nat → Node
  | generator : Str → Node

/-- A dictionary (`Dict` of onepass-base): word list plus 32-byte hash. -/
structure DictM where
  words : List Str
  hash : List Nat
deriving DecidableEq, Repr

/-- A `GeneratorFunc` (expr/generator.rs): its name plus `size`,
`write_to` and `write_repr`, each taking the dictionary table and the
default dictionary of the evaluating context, and the argument list.
Panics are modelled as `none`; `grepr` yields the text written between
the braces of the canonical serialization. -/
structure GenFunc where
  gname : Str
  gsize : List DictM → DictM → List Str → Option Nat
  gwrite : List DictM → DictM → List Str → Nat → Option Str
  grepr : List DictM → DictM → List Str → Option Str

/-- An evaluation `Context` (expr/context.rs): generator table, dictionary
table and default dictionary. -/
structure Ctx where
  gens : List GenFunc
  dicts : List DictM
  defaultDict : DictM

/-- `Context::new` registers the default dictionary in the lookup table. -/
def mkContext (gens : List GenFunc) (dicts : List DictM) (dflt : DictM) : Ctx :=
  ⟨gens, dflt :: dicts, dflt⟩

/-- `Context::get_generator`, by name. -/
def Ctx.getGenerator (ctx : Ctx) (n : Str) : Option GenFunc :=
  ctx.gens.find? (fun g => g.gname == n)

/-- `Context::get_dict`: `None` hash means the default dictionary. -/
def Ctx.getDict (ctx : Ctx) : Option (List Nat) → Option DictM
  | none => some ctx.defaultDict
  | some h => ctx.dicts.find? (fun d => d.hash == h)

/-- Lowercase ASCII letter (the generator-name alphabet). -/
def isLowerAlpha (c : Nat) : Bool := 0x61 ≤ c && c ≤ 0x7A

/-- `Generator::name`: maximal prefix of lowercase ASCII letters. -/
def genName (raw : Str) : Str := raw.takeWhile isLowerAlpha

/-- Split a list on a separator element, Rust `str::split` semantics
(empty pieces are kept). -/
def splitSep (sep : Nat) : Str → List Str
  | [] => [[]]
  | c :: cs =>
    if c = sep then [] :: splitSep sep cs
    else match splitSep sep cs with
      | [] => [[c]]
      | p :: ps => (c :: p) :: ps

/-- `Generator::args`: the first non-lowercase-ASCII character is the
separator; split the whole text on it and drop the leading name piece. -/
def genArgs (raw : Str) : List Str :=
  match raw.find? (fun c => !isLowerAlpha c) with
  | none => []
  | some sep => (splitSep sep raw).drop 1

/-- `count += 1; *index -= *n; *n = n.saturating_mul(&base)` loop of
`Node::write_to` for `Count` (expr/node.rs lines 83-87).  The source
loops `while n <= index`; `n ≥ 1` always holds there because the base is
a `NonZero` size, and the extra `1 ≤ n` guard makes the Lean function
total without changing its value on reachable states.  Each iteration
decreases `idx` by `n ≥ 1`, so `fuel = idx + 1` always suffices. -/
def countLoopF : Nat → Nat → Nat → Nat → Nat → Nat × Nat
  | 0, _, cnt, idx, _ => (cnt, idx)
  | fuel + 1, base, cnt, idx, n =>
    if n ≤ idx ∧ 1 ≤ n then countLoopF fuel base (cnt + 1) (idx - n) (satMul n base)
    else (cnt, idx)

/-- The `Count` subtract loop with always-sufficient fuel. -/
def countLoop (base cnt idx n : Nat) : Nat × Nat :=
  countLoopF (idx + 1) base cnt idx n

mutual

/-- `Node::size` (expr/node.rs lines 27-59).  `none` models a panic:
`NonZero::new(..).unwrap()` on zero, `u32` overflow or underflow in
`max - min + 1` and `l + 1`, `checked_sub(..).unwrap()`, and the
`assert!(rem.is_zero())` after the closed-form division. -/
def sizeN (ctx : Ctx) : Node → Option Nat
  | .literal _ => some 1
  | .chars cs => do
    let s ← charsSumSize cs
    if s = 0 then none else some s
  | .list ns => do
    let p ← sizeL ctx ns
    if p = 0 then none else some p
  | .count c mn mx => do
    let b ← sizeN ctx c
    if b = 1 then
      if mn ≤ mx ∧ mx - mn + 1 < 2 ^ 32 then some (mx - mn + 1) else none
    else
      if mx + 1 < 2 ^ 32 then
        let x1 := u256SatPow b (mx + 1)
        let x2 := u256SatPow b mn
        if x2 ≤ x1 then
          let x := x1 - x2
          if b = 0 then none
          else if x % (b - 1) = 0 then
            let q := x / (b - 1)
            if q = 0 then none else some q
          else none
        else none
      else none
  | .generator raw => do
    let f ← ctx.getGenerator (genName raw)
    f.gsize ctx.dicts ctx.defaultDict (genArgs raw)

/-- Product fold of `Node::size` for `List` with saturating multiply. -/
def sizeL (ctx : Ctx) : List Node → Option Nat
  | [] => some 1
  | n :: ns => do
    let p ← sizeL ctx ns
    let s ← sizeN ctx n
    some (satMul p s)

end

mutual

/-- Sufficient recursion fuel for rendering a node: tree depth plus, for
each `Count` node, its maximum repetition count. -/
def fuelOf : Node → Nat
  | .literal _ => 1
  | .chars _ => 1
  | .generator _ => 1
  | .list ns => fuelOfL ns + 1
  | .count c _ mx => fuelOf c + mx + 2

/-- Rendering fuel for a list of nodes. -/
def fuelOfL : List Node → Nat
  | [] => 1
  | n :: ns => fuelOf n + fuelOfL ns + 1

end

mutual

/-- `Node::write_to` (expr/node.rs lines 61-101), producing the written
scalars; fueled for structural recursion (running out of fuel is
unreachable from `writeN` below).  `none` models panics: `Chars::nth`'s
`unreachable!()`, the `u256_to_word` / `u32` conversion asserts on
oversized indices, the `assert!(count <= max)` and final
`assert!(index.is_zero())` of `Count`, and unwraps on generator lookup. -/
def writeNF (fuel : Nat) (ctx : Ctx) (node : Node) (i : Nat) : Option Str :=
  match fuel with
  | 0 => none
  | fuel + 1 =>
    match node with
    | .literal s => some s
    | .chars cs =>
      if i < 2 ^ 32 then (charsNth cs i).map (fun c => [c]) else none
    | .list ns => writeLF fuel ctx ns i
    | .count c mn mx => do
      let b ← sizeN ctx c
      if b = 0 then none
      else
        let n0 := u256SatPow b mn
        let (cnt, idx) := countLoop b mn i n0
        if cnt ≤ mx then do
          let (s, fin) ← writeTimesF fuel ctx c b cnt idx
          if fin = 0 then some s else none
        else none
    | .generator raw => do
      let f ← ctx.getGenerator (genName raw)
      f.gwrite ctx.dicts ctx.defaultDict (genArgs raw) i
termination_by structural fuel

/-- The `try_fold` over children of `List` in `Node::write_to`: write the
child at `index % size`, continue with `index / size`; the final
left-over index is discarded. -/
def writeLF (fuel : Nat) (ctx : Ctx) (ns : List Node) (i : Nat) : Option Str :=
  match fuel with
  | 0 => none
  | fuel + 1 =>
    match ns with
    | [] => some []
    | n :: ns => do
      let sz ← sizeN ctx n
      if sz = 0 then none
      else
        let s1 ← writeNF fuel ctx n (i % sz)
        let s2 ← writeLF fuel ctx ns (i / sz)
        some (s1 ++ s2)
termination_by structural fuel

/-- The `for _ in 0..count` digit loop of `Count` rendering: emit `k`
child renderings by repeated `div_rem` by the base, returning the
concatenation and the final index. -/
def writeTimesF (fuel : Nat) (ctx : Ctx) (c : Node) (b k idx : Nat) : Option (Str × Nat) :=
  match fuel with
  | 0 => none
  | fuel + 1 =>
    match k with
    | 0 => some ([], idx)
    | k + 1 => do
      let s ← writeNF fuel ctx c (idx % b)
      let (rest, fin) ← writeTimesF fuel ctx c b k (idx / b)
      some (s ++ rest, fin)
termination_by structural fuel

end

/-- `Node::write_to` with its always-sufficient fuel (see
`writeNF_suff` below: any fuel of at least `fuelOf n` gives the same
result). -/
def writeN (ctx : Ctx) (n : Node) (i : Nat) : Option Str :=
  writeNF (fuelOf n) ctx n i

/-- `Context::empty()`: no generators.  (Its default dictionary is the
EFF wordlist in the source; generator-free nodes never consult it, so an
empty dictionary is used here.) -/
def emptyCtx : Ctx := ⟨[], [], ⟨[], []⟩⟩

/-- Bit length by repeated halving; 256 iterations of fuel cover any
`U256` value. -/
def bitsLenF : Nat → Nat → Nat
  | 0, _ => 0
  | fuel + 1, n => if n = 0 then 0 else bitsLenF fuel (n / 2) + 1

/-- `U256::bits_vartime`: the bit length (0 for 0). -/
def bitsLen (n : Nat) : Nat := bitsLenF 256 n

/-- Little-endian value of a byte list. -/
def leBytesVal : List Nat → Nat
  | [] => 0
  | b :: bs => b + 256 * leBytesVal bs

/-- `rng.fill_bytes(&mut ret[..n_bytes])`: the next `nBytes` bytes of the
keystream starting at `pos`. -/
def drawBytes (stream : Nat → Nat) (pos nBytes : Nat) : List Nat :=
  (List.range nBytes).map (fun t => stream (pos + t) % 256)

/-- `ret[n_bytes - 1] &= hi_mask`: mask the final (top) byte. -/
def maskTop (hiMask : Nat) : List Nat → List Nat
  | [] => []
  | [b] => [b &&& hiMask]
  | b :: bs => b :: maskTop hiMask bs

/-- The rejection-sampling loop of `secret_uniform` (crypto.rs lines
72-79): draw, mask, reinterpret little-endian (the remaining bytes of
the 32-byte buffer stay zero), accept when `< n`.  Returns the drawn
value and the number of keystream bytes consumed; `fuel` bounds the
number of retries (the source loops until acceptance). -/
def secretUniformLoop (stream : Nat → Nat) (n nBytes hiMask : Nat) :
    Nat → Nat → Option (Nat × Nat)
  | 0, _ => none
  | fuel + 1, pos =>
    let ret := leBytesVal (maskTop hiMask (drawBytes stream pos nBytes))
    if ret < n then some (ret, pos + nBytes)
    else secretUniformLoop stream n nBytes hiMask fuel (pos + nBytes)

/-- `trailing_zeros_vartime` of a nonzero value, with enough fuel for a
256-bit input (`trailing_zeros_vartime(0)` is 256, the bit width). -/
def trailingZerosF : Nat → Nat → Nat
  | 0, _ => 0
  | fuel + 1, n => if n % 2 = 1 ∨ n = 0 then 0 else trailingZerosF fuel (n / 2) + 1

/-- `U256::trailing_zeros_vartime`. -/
def trailingZeros (n : Nat) : Nat := if n = 0 then 256 else trailingZerosF 256 n

/-- `secret_uniform` (crypto.rs lines 54-80) over an abstract keystream:
the ChaCha20 keystream seeded by the secret is modelled as an arbitrary
byte stream, so every theorem quantified over streams covers every
secret.  Zero bits means returning 0 without drawing; a power of two
drops one bit; otherwise rejection-sample `⌈bits/8⌉` bytes with the top
byte masked to `bits` bits. -/
def secretUniform (stream : Nat → Nat) (n : Nat) (fuel : Nat) : Option (Nat × Nat) :=
  let nBits := bitsLen n
  if nBits = 1 then some (0, 0)
  else
    let nBits := if trailingZeros n = nBits - 1 then nBits - 1 else nBits
    let nBytes := (nBits + 7) / 8
    let hiMask := 0xFF >>> ((8 - nBits % 8) % 8)
    secretUniformLoop stream n nBytes hiMask fuel 0

/-- UTF-8 encoding of one Unicode scalar value. -/
def utf8Char (c : Nat) : List Nat :=
  if c < 0x80 then [c]
  else if c < 0x800 then [0xC0 + c / 64, 0x80 + c % 64]
  else if c < 0x10000 then [0xE0 + c / 4096, 0x80 + c / 64 % 64, 0x80 + c % 64]
  else [0xF0 + c / 262144, 0x80 + c / 4096 % 64, 0x80 + c / 64 % 64, 0x80 + c % 64]

/-- UTF-8 encoding of a string of scalars. -/
def utf8Bytes (s : Str) : List Nat := (s.map utf8Char).flatten

/-- One character of TSV escaping (`TsvEscaper` in onepass-base fmt.rs).
The source escapes per byte; the four escaped bytes are ASCII and the
bytes of multi-byte UTF-8 characters are all `≥ 0x80`, so per-character
escaping is exact. -/
def tsvEscapeChar (c : Nat) : Str :=
  if c = 92 then [92, 92]
  else if c = 10 then [92, 110]
  else if c = 13 then [92, 114]
  else if c = 9 then [92, 116]
  else [c]

/-- TSV escaping of a whole field. -/
def tsvEscape (s : Str) : Str := (s.map tsvEscapeChar).flatten

/-- Lowercase hex digit for a value below 16. -/
def hexDigit (d : Nat) : Nat := if d < 10 then 48 + d else 87 + d

/-- Two lowercase hex digits of a byte. -/
def hexByte (b : Nat) : Str := [hexDigit (b / 16), hexDigit (b % 16)]

/-- Lowercase hex of a byte string (`hex::encode`). -/
def hexEncode (bs : List Nat) : Str := (bs.map hexByte).flatten

/-- Value of one hex digit character, upper or lower case
(`hex::decode` accepts both). -/
def hexDigitVal (c : Nat) : Option Nat :=
  if 48 ≤ c ∧ c ≤ 57 then some (c - 48)
  else if 97 ≤ c ∧ c ≤ 102 then some (c - 87)
  else if 65 ≤ c ∧ c ≤ 70 then some (c - 55)
  else none

/-- Decode a hex string to bytes; `none` on odd length or bad digit. -/
def hexDecode : Str → Option (List Nat)
  | [] => some []
  | [_] => none
  | c1 :: c2 :: rest => do
    let d1 ← hexDigitVal c1
    let d2 ← hexDigitVal c2
    let tail ← hexDecode rest
    some ((16 * d1 + d2) :: tail)

/-- `hex::decode_to_slice(arg, &mut [0u8; 32])`: exactly 64 hex chars. -/
def decodeHash (arg : Str) : Option (List Nat) :=
  if arg.length = 64 then hexDecode arg else none

/-- `Context::dict_hash`: the first argument that decodes as a 32-byte
hex hash. -/
def dictHashOfArgs (args : List Str) : Option (List Nat) :=
  args.findSome? decodeHash

/-- 64-bit word arithmetic for BLAKE2b. -/
def M64 : Nat := 2 ^ 64

def add64 (a b : Nat) : Nat := (a + b) % M64

def rotr64 (x r : Nat) : Nat := (x >>> r) ||| ((x <<< (64 - r)) % M64)

/-- The BLAKE2b initialization vector (RFC 7693 §2.6). -/
def blakeIV : List Nat :=
  [0x6a09e667f3bcc908, 0xbb67ae8584caa73b, 0x3c6ef372fe94f82b, 0xa54ff53a5f1d36f1,
   0x510e527fade682d1, 0x9b05688c2b3e6c1f, 0x1f83d9abfb41bd6b, 0x5be0cd19137e2179]

/-- The BLAKE2b message schedule (RFC 7693 §2.7). -/
def blakeSigma : List (List Nat) :=
  [[0, 1, 2, 3, 4, 5, 6, 7, 8, 9, 10, 11, 12, 13, 14, 15],
   [14, 10, 4, 8, 9, 15, 13, 6, 1, 12, 0, 2, 11, 7, 5, 3],
   [11, 8, 12, 0, 5, 2, 15, 13, 10, 14, 3, 6, 7, 1, 9, 4],
   [7, 9, 3, 1, 13, 12, 11, 14, 2, 6, 5, 10, 4, 0, 15, 8],
   [9, 0, 5, 7, 2, 4, 10, 15, 14, 1, 11, 12, 6, 8, 3, 13],
   [2, 12, 6, 10, 0, 11, 8, 3, 4, 13, 7, 5, 15, 14, 1, 9],
   [12, 5, 1, 15, 14, 13, 4, 10, 0, 7, 6, 3, 9, 2, 8, 11],
   [13, 11, 7, 14, 12, 1, 3, 9, 5, 0, 15, 4, 8, 6, 2, 10],
   [6, 15, 14, 9, 11, 3, 0, 8, 12, 2, 13, 7, 1, 4, 10, 5],
   [10, 2, 8, 4, 7, 6, 1, 5, 15, 11, 9, 14, 3, 12, 13, 0],
   [0, 1, 2, 3, 4, 5, 6, 7, 8, 9, 10, 11, 12, 13, 14, 15],
   [14, 10, 4, 8, 9, 15, 13, 6, 1, 12, 0, 2, 11, 7, 5, 3]]

/-- The BLAKE2b `G` mixing function (RFC 7693 §3.1). -/
def gMix (v : List Nat) (a b c d x y : Nat) : List Nat :=
  let va := add64 (add64 (v.getD a 0) (v.getD b 0)) x
  let vd := rotr64 ((v.getD d 0) ^^^ va) 32
  let vc := add64 (v.getD c 0) vd
  let vb := rotr64 ((v.getD b 0) ^^^ vc) 24
  let va2 := add64 (add64 va vb) y
  let vd2 := rotr64 (vd ^^^ va2) 16
  let vc2 := add64 vc vd2
  let vb2 := rotr64 (vb ^^^ vc2) 63
  (((v.set a va2).set b vb2).set c vc2).set d vd2

/-- One BLAKE2b round with schedule row `sig`. -/
def blakeRound (m v : List Nat) (sig : List Nat) : List Nat :=
  let mi := fun i => m.getD (sig.getD i 0) 0
  gMix (gMix (gMix (gMix (gMix (gMix (gMix (gMix v
    0 4 8 12 (mi 0) (mi 1))
    1 5 9 13 (mi 2) (mi 3))
    2 6 10 14 (mi 4) (mi 5))
    3 7 11 15 (mi 6) (mi 7))
    0 5 10 15 (mi 8) (mi 9))
    1 6 11 12 (mi 10) (mi 11))
    2 7 8 13 (mi 12) (mi 13))
    3 4 9 14 (mi 14) (mi 15)

/-- The BLAKE2b compression function `F` (RFC 7693 §3.2). -/
def blakeCompress (h m : List Nat) (t : Nat) (last : Bool) : List Nat :=
  let v0 := h ++ blakeIV
  let v1 := v0.set 12 ((v0.getD 12 0) ^^^ (t % M64))
  let v2 := v1.set 13 ((v1.getD 13 0) ^^^ (t / M64 % M64))
  let v3 := if last then v2.set 14 ((v2.getD 14 0) ^^^ (M64 - 1)) else v2
  let v := blakeSigma.foldl (fun w sig => blakeRound m w sig) v3
  (List.range 8).map (fun i => (h.getD i 0) ^^^ (v.getD i 0) ^^^ (v.getD (i + 8) 0))

/-- Little-endian word value of up to 8 bytes. -/
def leWord (bs : List Nat) : Nat := bs.foldr (fun b acc => b + 256 * acc) 0

/-- Split a 128-byte block into 16 little-endian words. -/
def blockWordsF : Nat → List Nat → List Nat
  | 0, _ => []
  | k + 1, bs => leWord (bs.take 8) :: blockWordsF k (bs.drop 8)

def blockWords (bs : List Nat) : List Nat := blockWordsF 16 bs

/-- Pad a final block with zero bytes to 128 bytes. -/
def padBlock (bs : List Nat) : List Nat := bs ++ List.replicate (128 - bs.length) 0

/-- Process the message blocks; `fuel = length / 128 + 1` always
suffices since each step consumes 128 bytes. -/
def blakeBlocksF : Nat → List Nat → List Nat → Nat → List Nat
  | 0, h, _, _ => h
  | fuel + 1, h, msg, done =>
    if msg.length ≤ 128 then
      blakeCompress h (blockWords (padBlock msg)) (done + msg.length) true
    else
      blakeBlocksF fuel
        (blakeCompress h (blockWords (msg.take 128)) (done + 128) false)
        (msg.drop 128) (done + 128)

/-- Little-endian bytes of a 64-bit word. -/
def wordLEBytes (w : Nat) : List Nat :=
  (List.range 8).map (fun t => w >>> (8 * t) % 256)

/-- BLAKE2b-256 of a byte string: unkeyed, 32-byte digest (parameter
block: `h0 ^= 0x01010000 ^ nn` with `nn = 32`). -/
def blake2b256 (msg : List Nat) : List Nat :=
  let h0 := blakeIV.set 0 ((blakeIV.getD 0 0) ^^^ 0x01010020)
  let h := blakeBlocksF (msg.length / 128 + 1) h0 msg 0
  ((h.take 4).map wordLEBytes).flatten

/-- Lexicographic comparison of scalar strings.  Rust sorts `&str` by
UTF-8 bytes; UTF-8 preserves scalar order, so scalar-wise comparison is
the same order. -/
def strLe : Str → Str → Bool
  | [], _ => true
  | _ :: _, [] => false
  | a :: as, b :: bs => if a < b then true else if b < a then false else strLe as bs

/-- `Vec::dedup`: drop adjacent duplicates. -/
def dedupAdj : List Str → List Str
  | [] => []
  | [a] => [a]
  | a :: b :: rest =>
    if a = b then dedupAdj (b :: rest) else a :: dedupAdj (b :: rest)

/-- The word list built by `BoxDict::from_iter` (onepass-base dict.rs
lines 43-53): drop empties, sort (`sort_unstable`, modelled by an
insertion sort — the result of any comparison sort under a total order
is the same sorted permutation), dedup. -/
def dictWords (tokens : List Str) : List Str :=
  dedupAdj (List.insertionSort (fun a b => strLe a b = true)
    (tokens.filter (fun t => !t.isEmpty)))

/-- The canonical dictionary serialization hashed by `from_iter`:
`Lines(items.map(TsvField))` — each word TSV-escaped then a newline. -/
def dictSerial (ws : List Str) : List Nat :=
  (ws.map (fun w => utf8Bytes (tsvEscape w) ++ [10])).flatten

/-- The dictionary content hash: BLAKE2b-256 of the serialization. -/
def dictHashBytes (ws : List Str) : List Nat := blake2b256 (dictSerial ws)

/-- `BoxDict::from_iter`. -/
def buildDict (tokens : List Str) : DictM :=
  let ws := dictWords tokens
  ⟨ws, dictHashBytes ws⟩

def strLe_total : ∀ a b : Str, strLe a b = true ∨ strLe b a = true
  | [], _ => Or.inl rfl
  | _ :: _, [] => Or.inr rfl
  | a :: as, b :: bs => by
    rw [strLe, strLe]
    by_cases hab : a < b
    · left
      rw [if_pos hab]
    · by_cases hba : b < a
      · right
        rw [if_pos hba]
      · have : a = b := by omega
        subst this
        simp only [if_neg hab]
        exact strLe_total as bs

def strLe_trans : ∀ a b c : Str, strLe a b = true → strLe b c = true → strLe a c = true
  | [], _, _ => fun _ _ => rfl
  | _ :: _, [], _ => fun h _ => by simp [strLe] at h
  | _ :: _, _ :: _, [] => fun _ h => by simp [strLe] at h
  | a :: as, b :: bs, c :: cs => fun h1 h2 => by
    rw [strLe] at h1 h2 ⊢
    by_cases hab : a < b
    · by_cases hbc : b < c
      · rw [if_pos (Nat.lt_trans hab hbc)]
      · by_cases hcb : c < b
        · rw [if_neg hbc, if_pos hcb] at h2
          exact absurd h2 (by simp)
        · have : b = c := by omega
          subst this
          rw [if_pos hab]
    · by_cases hba : b < a
      · rw [if_neg hab, if_pos hba] at h1
        exact absurd h1 (by simp)
      · have : a = b := by omega
        subst this
        simp only [if_neg hab, if_neg hba] at h1
        by_cases hac : a < c
        · rw [if_pos hac]
        · by_cases hca : c < a
          · rw [if_neg hac, if_pos hca] at h2
            exact absurd h2 (by simp)
          · have : a = c := by omega
            subst this
            simp only [if_neg hac, if_neg hca] at h2 ⊢
            exact strLe_trans as bs cs h1 h2

def strLe_antisymm : ∀ a b : Str, strLe a b = true → strLe b a = true → a = b
  | [], [] => fun _ _ => rfl
  | [], _ :: _ => fun _ h => by simp [strLe] at h
  | _ :: _, [] => fun h _ => by simp [strLe] at h
  | a :: as, b :: bs => fun h1 h2 => by
    rw [strLe] at h1 h2
    by_cases hab : a < b
    · rw [if_neg (by omega : ¬b < a), if_pos hab] at h2
      exact absurd h2 (by simp)
    · by_cases hba : b < a
      · rw [if_neg hab, if_pos hba] at h1
        exact absurd h1 (by simp)
      · have : a = b := by omega
        subst this
        simp only [if_neg hab] at h1 h2
        rw [strLe_antisymm as bs h1 h2]

instance : IsTotal Str (fun a b => strLe a b = true) := ⟨strLe_total⟩

instance : IsTrans Str (fun a b => strLe a b = true) := ⟨strLe_trans⟩

instance : IsAntisymm Str (fun a b => strLe a b = true) := ⟨strLe_antisymm⟩

/-- Parser result: `ok` with value and remaining input, backtrackable
`err` (nom `Error`) or fatal `fail` (nom `Failure`). -/
inductive PRes (α : Type) where
  | ok : α → Str → PRes α
  | err : PRes α
  | fail : PRes α

/-- Sequencing: errors and failures propagate. -/
def PRes.andThen {α β : Type} (r : PRes α) (f : α → Str → PRes β) : PRes β :=
  match r with
  | .ok a rest => f a rest
  | .err => .err
  | .fail => .fail

/-- `nom::branch::alt` of two parsers: try the second only on `Error`. -/
def pAlt {α : Type} (p q : Str → PRes α) (inp : Str) : PRes α :=
  match p inp with
  | .err => q inp
  | r => r

/-- `nom::combinator::opt`: `Error` becomes `none` without consuming. -/
def pOpt {α : Type} (p : Str → PRes α) (inp : Str) : PRes (Option α) :=
  match p inp with
  | .ok a r => .ok (some a) r
  | .err => .ok none inp
  | .fail => .fail

/-- `nom::combinator::map`. -/
def pMap {α β : Type} (p : Str → PRes α) (f : α → β) (inp : Str) : PRes β :=
  (p inp).andThen fun a r => .ok (f a) r

/-- `nom::character::complete::char`. -/
def pChar (c : Nat) : Str → PRes Unit
  | [] => .err
  | x :: xs => if x = c then .ok () xs else .err

/-- `nom::bytes::complete::tag`. -/
def pTag (t : Str) (inp : Str) : PRes Unit :=
  if inp.take t.length = t then .ok () (inp.drop t.length) else .err

/-- `nom::character::complete::anychar`. -/
def pAnychar : Str → PRes Nat
  | [] => .err
  | x :: xs => .ok x xs

/-- `nom::bytes::complete::is_not`: longest nonempty prefix avoiding the
given characters. -/
def isNotSet (bad : Str) (inp : Str) : PRes Str :=
  let tk := inp.takeWhile (fun c => !bad.contains c)
  if tk.isEmpty then .err else .ok tk (inp.drop tk.length)

/-- `nom::bytes::complete::take_while_m_n`. -/
def pTakeWhileMN (m n : Nat) (p : Nat → Bool) (inp : Str) : PRes Str :=
  let tk := (inp.takeWhile p).take n
  if tk.length < m then .err else .ok tk (inp.drop tk.length)

/-- `nom::character::complete::u32`: one or more ASCII digits with
checked accumulation (overflow is an `Error`). -/
def pU32 (inp : Str) : PRes Nat :=
  let ds := inp.takeWhile (fun c => 48 ≤ c && c ≤ 57)
  if ds.isEmpty then .err
  else
    let v := ds.foldl (fun acc d => acc * 10 + (d - 48)) 0
    if v < 2 ^ 32 then .ok v (inp.drop ds.length) else .err

/-- `nom::multi::fold(1.., …)`: apply the parser at least once, folding
results; stop on `Error`, propagate `Failure`.  Every fragment parser
below consumes at least one character, so `rest.length + 1` fuel always
suffices. -/
def pFoldGo {α β : Type} (p : Str → PRes α) (f : β → α → β) : Nat → β → Str → PRes β
  | 0, acc, inp => .ok acc inp
  | fuel + 1, acc, inp =>
    match p inp with
    | .ok a rest => pFoldGo p f fuel (f acc a) rest
    | .err => .ok acc inp
    | .fail => .fail

def pFold1 {α β : Type} (p : Str → PRes α) (f : β → α → β) (init : β) (inp : Str) : PRes β :=
  match p inp with
  | .ok a rest => pFoldGo p f (rest.length + 1) (f init a) rest
  | .err => .err
  | .fail => .fail

/-- ASCII alphanumeric. -/
def isAlnum (c : Nat) : Bool :=
  (48 ≤ c && c ≤ 57) || (65 ≤ c && c ≤ 90) || (97 ≤ c && c ≤ 122)

/-- ASCII hex digit (either case). -/
def isHexDigitChar (c : Nat) : Bool :=
  (48 ≤ c && c ≤ 57) || (97 ≤ c && c ≤ 102) || (65 ≤ c && c ≤ 70)

/-- Value of a pre-validated hex digit string. -/
def hexVal (s : Str) : Nat := s.foldl (fun acc c => acc * 16 + (hexDigitVal c).getD 0) 0

/-- `parse_unicode_digits`: `\uXXXX` or `\u{X{1,6}}`. -/
def pUnicodeDigits (inp : Str) : PRes Nat :=
  (pTag (str2n "\\u") inp).andThen fun _ r =>
    pAlt (pMap (pTakeWhileMN 4 4 isHexDigitChar) hexVal)
      (fun i =>
        (pChar 123 i).andThen fun _ r1 =>
        (pTakeWhileMN 1 6 isHexDigitChar r1).andThen fun ds r2 =>
        (pChar 125 r2).andThen fun _ r3 => .ok (hexVal ds) r3) r

/-- `parse_unicode_char`: `map_res(parse_unicode_digits, char::try_from)`. -/
def pUnicodeChar (inp : Str) : PRes Nat :=
  (pUnicodeDigits inp).andThen fun v r =>
    if isScalar v then .ok v r else .err

/-- `parse_hex_byte`: `\xHH`. -/
def pHexByte (inp : Str) : PRes Nat :=
  (pTag (str2n "\\x") inp).andThen fun _ r =>
  (pTakeWhileMN 2 2 isHexDigitChar r).andThen fun ds r2 => .ok (hexVal ds) r2

/-- UTF-8 continuation byte. -/
def isCont (b : Nat) : Bool := 0x80 ≤ b && b ≤ 0xBF

/-- `str_to_char` on a 2-4 byte buffer: strict UTF-8 validation
(`str::from_utf8`) yielding the single decoded scalar. -/
def utf8DecodeSeq : List Nat → Option Nat
  | [b1, b2] =>
    if 0xC2 ≤ b1 && b1 ≤ 0xDF && isCont b2 then
      some ((b1 - 0xC0) * 64 + (b2 - 0x80))
    else none
  | [b1, b2, b3] =>
    if 0xE0 ≤ b1 && b1 ≤ 0xEF && isCont b2 && isCont b3 then
      let v := (b1 - 0xE0) * 4096 + (b2 - 0x80) * 64 + (b3 - 0x80)
      if 0x800 ≤ v && !(0xD800 ≤ v && v < 0xE000) then some v else none
    else none
  | [b1, b2, b3, b4] =>
    if 0xF0 ≤ b1 && b1 ≤ 0xF4 && isCont b2 && isCont b3 && isCont b4 then
      let v := (b1 - 0xF0) * 262144 + (b2 - 0x80) * 4096 + (b3 - 0x80) * 64 + (b4 - 0x80)
      if 0x10000 ≤ v && v < 0x110000 then some v else none
    else none
  | _ => none

/-- `parse_hex_char`: one `\xHH` byte, collecting continuation bytes per
the UTF-8 length signalled by the first byte. -/
def pHexChar (inp : Str) : PRes Nat :=
  (pHexByte inp).andThen fun b r =>
  if b < 0x80 then .ok b r
  else if b &&& 0xE0 = 0xC0 then
    (pHexByte r).andThen fun b2 r2 =>
      match utf8DecodeSeq [b, b2] with
      | some c => .ok c r2
      | none => .err
  else if b &&& 0xF0 = 0xE0 then
    (pHexByte r).andThen fun b2 r2 =>
    (pHexByte r2).andThen fun b3 r3 =>
      match utf8DecodeSeq [b, b2, b3] with
      | some c => .ok c r3
      | none => .err
  else if b &&& 0xF8 = 0xF0 then
    (pHexByte r).andThen fun b2 r2 =>
    (pHexByte r2).andThen fun b3 r3 =>
    (pHexByte r3).andThen fun b4 r4 =>
      match utf8DecodeSeq [b, b2, b3, b4] with
      | some c => .ok c r4
      | none => .err
  else .err

/-- `parse_literal_escaped`. -/
def pLiteralEscaped (inp : Str) : PRes Nat :=
  pAlt (fun i =>
      (pChar 92 i).andThen fun _ r =>
        pAlt (fun j => (pChar 110 j).andThen fun _ r2 => .ok 10 r2)
        (pAlt (fun j => (pChar 114 j).andThen fun _ r2 => .ok 13 r2)
        (pAlt (fun j => (pChar 116 j).andThen fun _ r2 => .ok 9 r2)
          (fun j => (pAnychar j).andThen fun c r2 =>
            if !isAlnum c then .ok c r2 else .err))) r)
    (pAlt pHexChar pUnicodeChar) inp

/-- `parse_literal_verbatim`: `is_not("\\[](){}|")` (the `verify` of
non-emptiness is built into `is_not`). -/
def pLiteralVerbatim (inp : Str) : PRes Str :=
  isNotSet (str2n "\\[](){}|") inp

/-- `parse_literal_fragment`. -/
def pLiteralFragment (inp : Str) : PRes Str :=
  pAlt pLiteralVerbatim (pMap pLiteralEscaped (fun c => [c])) inp

/-- `parse_literal`: fold of at least one fragment. -/
def pLiteral (inp : Str) : PRes Str :=
  pFold1 pLiteralFragment (fun acc frag => acc ++ frag) [] inp

/-- The POSIX class tables (parse.rs lines 350-358). -/
def rLOWER : List CRange := [⟨97, 122⟩]

def rUPPER : List CRange := [⟨65, 90⟩]

def rALPHA : List CRange := [⟨65, 90⟩, ⟨97, 122⟩]

def rALNUM : List CRange := [⟨48, 57⟩, ⟨65, 90⟩, ⟨97, 122⟩]

def rDIGIT : List CRange := [⟨48, 57⟩]

def rXDIGIT : List CRange := [⟨48, 57⟩, ⟨97, 102⟩]

def rPUNCT : List CRange := [⟨33, 47⟩, ⟨58, 64⟩, ⟨91, 96⟩, ⟨123, 126⟩]

def rPRINT : List CRange := [⟨32, 126⟩]

def rWORD : List CRange := [⟨48, 57⟩, ⟨65, 90⟩, ⟨95, 95⟩, ⟨97, 122⟩]

/-- `parse_chars_posix`. -/
def pCharsPosix (inp : Str) : PRes (List CRange) :=
  (pTag (str2n "[:") inp).andThen fun _ r =>
  (pAlt (pMap (pTag (str2n "lower")) (fun _ => rLOWER))
  (pAlt (pMap (pTag (str2n "upper")) (fun _ => rUPPER))
  (pAlt (pMap (pTag (str2n "alpha")) (fun _ => rALPHA))
  (pAlt (pMap (pTag (str2n "alnum")) (fun _ => rALNUM))
  (pAlt (pMap (pTag (str2n "digit")) (fun _ => rDIGIT))
  (pAlt (pMap (pTag (str2n "xdigit")) (fun _ => rXDIGIT))
  (pAlt (pMap (pTag (str2n "punct")) (fun _ => rPUNCT))
        (pMap (pTag (str2n "print")) (fun _ => rPRINT)))))))) r).andThen fun v r2 =>
  (pTag (str2n ":]") r2).andThen fun _ r3 => .ok v r3

/-- `parse_chars_special`: `\w` and `\d`. -/
def pCharsSpecial (inp : Str) : PRes (List CRange) :=
  (pChar 92 inp).andThen fun _ r =>
    pAlt (fun j => (pChar 119 j).andThen fun _ r2 => .ok rWORD r2)
        (fun j => (pChar 100 j).andThen fun _ r2 => .ok rDIGIT r2) r

/-- `parse_chars_single`: `none_of("\\]")` or an escape. -/
def pCharsSingle (inp : Str) : PRes Nat :=
  pAlt (fun i =>
      match i with
      | [] => .err
      | c :: cs => if c = 92 ∨ c = 93 then .err else .ok c cs)
    pLiteralEscaped inp

/-- `parse_chars_range`: `a-b` (with `a ≤ b` enforced via a nom
`Failure`) or a single character. -/
def pCharsRange (inp : Str) : PRes CRange :=
  match pOpt (fun i =>
      (pCharsSingle i).andThen fun a r =>
      (pChar 45 r).andThen fun _ r2 =>
      (pCharsSingle r2).andThen fun b r3 => .ok (a, b) r3) inp with
  | .ok (some (a, b)) r => if a ≤ b then .ok ⟨a, b⟩ r else .fail
  | .ok none _ => pMap pCharsSingle (fun c => CRange.mk c c) inp
  | .err => .err
  | .fail => .fail

/-- `parse_legacy_words_err`: `[:word:]` and `[:Word:]` are rejected
with a `Failure`. -/
def pLegacyWordsErr (inp : Str) : PRes (List CRange) :=
  match pAlt (pTag (str2n "[:word:]")) (pTag (str2n "[:Word:]")) inp with
  | .ok _ _ => .fail
  | .err => .err
  | .fail => .fail

/-- `parse_chars_brackets`: `[` classes `]`, normalized by
`Chars::from_ranges`. -/
def pCharsBrackets (inp : Str) : PRes (List CRange) :=
  (pChar 91 inp).andThen fun _ r =>
  (pFold1 (pAlt pCharsPosix (pAlt pCharsSpecial (pMap pCharsRange (fun cr => [cr]))))
    (fun acc ps => acc ++ ps) [] r).andThen fun ranges r2 =>
  (pChar 93 r2).andThen fun _ r3 => .ok (fromRanges ranges) r3

/-- `parse_chars`. -/
def pChars (inp : Str) : PRes (List CRange) :=
  pAlt pLegacyWordsErr (pAlt pCharsBrackets (pMap pCharsSpecial fromRanges)) inp

/-- `parse_generator_fragment`. -/
def pGeneratorFragment (inp : Str) : PRes Str :=
  pAlt (isNotSet [92, 125]) (pMap pLiteralEscaped (fun c => [c])) inp

/-- `parse_generator`: `{`, peek of a lowercase ASCII letter, fold of
fragments, `}`. -/
def pGenerator (inp : Str) : PRes Str :=
  (pChar 123 inp).andThen fun _ r =>
  match r with
  | [] => .err
  | c :: _ =>
    if isLowerAlpha c then
      (pFold1 pGeneratorFragment (fun acc f => acc ++ f) [] r).andThen fun raw r2 =>
      (pChar 125 r2).andThen fun _ r3 => .ok raw r3
    else .err

/-- The `counts` alternatives of `parse_count`: `a,b` or `n` or `,b`. -/
def pCounts (inp : Str) : PRes (Nat × Nat) :=
  pAlt (fun i =>
      (pU32 i).andThen fun a r =>
      (pChar 44 r).andThen fun _ r2 =>
      (pU32 r2).andThen fun b r3 => .ok (a, b) r3)
  (pAlt (pMap pU32 (fun n => (n, n)))
      (fun i =>
        (pChar 44 i).andThen fun _ r =>
        (pU32 r).andThen fun n r2 => .ok (0, n) r2)) inp

mutual

/-- `parse_count`: a single node with an optional `{…}` count suffix. -/
def pCount (fuel : Nat) (inp : Str) : PRes Node :=
  match fuel with
  | 0 => .err
  | fuel + 1 =>
    (pSingle fuel inp).andThen fun node r =>
    (pOpt (fun i =>
        (pChar 123 i).andThen fun _ r1 =>
        (pCounts r1).andThen fun ab r2 =>
        (pChar 125 r2).andThen fun _ r3 => .ok ab r3) r).andThen fun cnt r2 =>
    .ok (match cnt with
        | none => node
        | some (a, b) => Node.count node a b) r2
termination_by structural fuel

/-- `parse_single`. -/
def pSingle (fuel : Nat) (inp : Str) : PRes Node :=
  match fuel with
  | 0 => .err
  | fuel + 1 =>
    pAlt (pMap pLiteral Node.literal)
    (pAlt (pMap pChars Node.chars)
    (pAlt (pMap pGenerator Node.generator)
        (pList fuel))) inp
termination_by structural fuel

/-- `parse_list`: a parenthesized sub-expression. -/
def pList (fuel : Nat) (inp : Str) : PRes Node :=
  match fuel with
  | 0 => .err
  | fuel + 1 =>
    (pChar 40 inp).andThen fun _ r =>
    (pNode fuel r).andThen fun n r2 =>
    (pChar 41 r2).andThen fun _ r3 => .ok n r3
termination_by structural fuel

/-- The `many1(parse_count)` loop body. -/
def pCountMany (fuel : Nat) (acc : List Node) (inp : Str) : PRes (List Node) :=
  match fuel with
  | 0 => .ok acc.reverse inp
  | fuel + 1 =>
    match pCount fuel inp with
    | .ok n rest => pCountMany fuel (n :: acc) rest
    | .err => .ok acc.reverse inp
    | .fail => .fail
termination_by structural fuel

/-- `Node::parse`: `many1(parse_count)`, collapsing a singleton list. -/
def pNode (fuel : Nat) (inp : Str) : PRes Node :=
  match fuel with
  | 0 => .err
  | fuel + 1 =>
    match pCount fuel inp with
    | .ok n rest =>
      (pCountMany fuel [n] rest).andThen fun ns r =>
        .ok (match ns with
            | [m] => m
            | ms => Node.list ms) r
    | .err => .err
    | .fail => .fail
termination_by structural fuel

end

/-- Each grammar level consumes input (`(`, one fragment, …), so fuel
linear in the input length suffices. -/
def parseFuel (inp : Str) : Nat := 4 * inp.length + 8

/-- `Node::from_str`: run `Node::parse` and keep the node — the
`Ok((_remaining, node)) => Ok(node)` arm of `from_str` discards any
remaining input. -/
def parseSchema (inp : Str) : Option Node :=
  match pNode (parseFuel inp) inp with
  | .ok n _ => some n
  | _ => none

/-- One character of `write_literal` escaping (expr/repr.rs lines
102-134).  The source escapes per byte; the escaped bytes and `\xHH`
cases are all ASCII and multi-byte UTF-8 bytes pass through, so
per-character escaping is exact. -/
def escLiteralChar (c : Nat) : Str :=
  if c = 92 then [92, 92]
  else if c = 40 then [92, 40]
  else if c = 41 then [92, 41]
  else if c = 91 then [92, 91]
  else if c = 93 then [92, 93]
  else if c = 123 then [92, 123]
  else if c = 125 then [92, 125]
  else if c = 124 then [92, 124]
  else if c < 0x20 ∨ c = 0x7f then [92, 120] ++ hexByte c
  else [c]

/-- `write_literal`. -/
def escLiteral (s : Str) : Str := (s.map escLiteralChar).flatten

/-- `{:x}`-formatting of a scalar value: lowercase hex, no padding;
eight fuel digits cover any `u32`. -/
def hexLowerF : Nat → Nat → Str
  | 0, _ => []
  | fuel + 1, c => if c < 16 then [hexDigit c] else hexLowerF fuel (c / 16) ++ [hexDigit (c % 16)]

def hexLowerNat (c : Nat) : Str := hexLowerF 8 c

/-- `char::escape_debug` for the characters reachable from
`write_escape` (that is, `c ≥ 0x20` and `c ≠ 0x7f`): backslash, single
and double quote are backslash-escaped; printable characters stand for
themselves; others print as `\u{hex}`.  Printability of non-ASCII
characters comes from Unicode tables, abstracted as the parameter
`pr`. -/
def escapeDebug (pr : Nat → Bool) (c : Nat) : Str :=
  if c = 92 then [92, 92]
  else if c = 39 then [92, 39]
  else if c = 34 then [92, 34]
  else if pr c then [c]
  else str2n "\\u" ++ [123] ++ hexLowerNat c ++ [125]

/-- `write_escape` (expr/repr.rs lines 136-145). -/
def writeEscape (pr : Nat → Bool) (c : Nat) : Str :=
  if c < 0x20 ∨ c = 0x7f then [92, 120] ++ hexByte c
  else if c = 93 then [92, 93]
  else escapeDebug pr c

/-- `fmt_charclass`. -/
def fmtCharclass (pr : Nat → Bool) (r : CRange) : Str :=
  writeEscape pr r.start ++
    (if r.last = r.start then [] else [45] ++ writeEscape pr r.last)

/-- `Chars::write_repr` (expr/repr.rs lines 22-41): a range starting
with `-` first, ranges not touching `-` in the middle, a range ending
with `-` last. -/
def charsRepr (pr : Nat → Bool) (cs : List CRange) : Str :=
  [91] ++
  (match cs.find? (fun r => r.start = 45) with
   | some h => fmtCharclass pr h
   | none => []) ++
  ((cs.filter (fun r => r.start ≠ 45 ∧ r.last ≠ 45)).map (fmtCharclass pr)).flatten ++
  (match cs.find? (fun r => r.last = 45 && r.start ≠ 45) with
   | some h => fmtCharclass pr h
   | none => []) ++
  [93]

/-- Decimal formatting of a `u32` (ten fuel digits suffice). -/
def decReprF : Nat → Nat → Str
  | 0, _ => []
  | fuel + 1, n => if n < 10 then [48 + n] else decReprF fuel (n / 10) ++ [48 + n % 10]

def decRepr (n : Nat) : Str := decReprF 10 n

/-- `write_sep_arg` (expr/generator.rs lines 50-57): a `|` separator
followed by the `write_literal`-escaped argument. -/
def writeSepArg (arg : Str) : Str := [124] ++ escLiteral arg

/-- `fmt_with_hash` (expr/generator.rs lines 121-141): inject the
dictionary hash unless some argument already decodes to it, then write
all arguments. -/
def fmtWithHash (hash : List Nat) (args : List Str) : Str :=
  (if args.any (fun arg => decodeHash arg == some hash) then []
   else writeSepArg (hexEncode hash)) ++
  (args.map writeSepArg).flatten

mutual

/-- `ReprState::write` (expr/repr.rs lines 43-83).  The state bit
(`self.0`) is set to `true` when a `List` is entered and never reset;
only `List` nodes read it, and every list writes its children with the
bit set, so passing the bit down functionally is exact.  `none` models
the `unwrap` on generator lookup. -/
def reprN (pr : Nat → Bool) (ctx : Ctx) : Bool → Node → Option Str
  | _, .literal s => some (escLiteral s)
  | _, .chars cs => some (charsRepr pr cs)
  | nested, .list ns => do
    let inner ← reprL pr ctx ns
    some (if nested then [40] ++ inner ++ [41] else inner)
  | nested, .count c mn mx => do
    let inner ← reprN pr ctx nested c
    some (inner ++ [123] ++ decRepr mn ++
      (if mx = mn then [] else [44] ++ decRepr mx) ++ [125])
  | _, .generator raw => do
    let f ← ctx.getGenerator (genName raw)
    let inner ← f.grepr ctx.dicts ctx.defaultDict (genArgs raw)
    some ([123] ++ inner ++ [125])

/-- Children of a list are written with the nested bit set. -/
def reprL (pr : Nat → Bool) (ctx : Ctx) : List Node → Option Str
  | [] => some []
  | n :: ns => do
    let s1 ← reprN pr ctx true n
    let s2 ← reprL pr ctx ns
    some (s1 ++ s2)

end

/-- `str::parse::<u32>` on an argument whose first character is an
ASCII digit: all characters must be digits and the value must fit. -/
def parseU32Str (s : Str) : Option Nat :=
  if s ≠ [] ∧ s.all (fun c => 48 ≤ c && c ≤ 57) then
    let v := s.foldl (fun acc d => acc * 10 + (d - 48)) 0
    if v < 2 ^ 32 then some v else none
  else none

/-- ASCII punctuation (`u8::is_ascii_punctuation`). -/
def isAsciiPunct (c : Nat) : Bool :=
  (33 ≤ c && c ≤ 47) || (58 ≤ c && c ≤ 64) || (91 ≤ c && c ≤ 96) || (123 ≤ c && c ≤ 126)

/-- `Words::parse_args` (expr/generator.rs lines 190-213): fold over the
arguments updating count, separator and uppercase flag; the final
`assert!(count > 0)` is modelled by `none`. -/
def wordsParseArgs (args : List Str) : Option (Nat × Str × Bool) :=
  let step := fun (acc : Nat × Str × Bool) (arg : Str) =>
    let (count, sep, upper) := acc
    match arg with
    | [] => (count, [], upper)
    | c :: _ =>
      if 48 ≤ c ∧ c ≤ 57 then
        match parseU32Str arg with
        | some n => (n, sep, upper)
        | none => (count, sep, upper)
      else if arg.length = 1 then
        if isAsciiPunct c then (count, arg, upper)
        else if c = 85 then (count, sep, true)
        else (count, sep, upper)
      else (count, sep, upper)
  let (count, sep, upper) := args.foldl step (5, [32], false)
  if count = 0 then none else some (count, sep, upper)

/-- `char::to_uppercase` of the first character, for the ASCII range
(dictionary words evaluated by the claims are ASCII). -/
def upperFirst (w : Str) : Str :=
  match w with
  | [] => []
  | c :: cs => (if 97 ≤ c ∧ c ≤ 122 then c - 32 else c) :: cs

/-- The `word` generator (expr/generator.rs lines 143-187). -/
def wordFn : GenFunc where
  gname := str2n "word"
  gsize := fun dicts dflt args => do
    let d ← Ctx.getDict ⟨[], dicts, dflt⟩ (dictHashOfArgs args)
    if d.words.length = 0 then none else some d.words.length
  gwrite := fun dicts dflt args i => do
    let d ← Ctx.getDict ⟨[], dicts, dflt⟩ (dictHashOfArgs args)
    if i < 2 ^ 64 then
      match d.words[i]? with
      | none => none
      | some w =>
        if args.any (fun a => a == str2n "U") then some (upperFirst w) else some w
    else none
  grepr := fun _ dflt args =>
    let hash := (dictHashOfArgs args).getD dflt.hash
    some (str2n "word" ++ fmtWithHash hash args)

/-- The digit loop of `Words::write_to`: emit `count` words separated by
`sep`, uppercasing word `j`. -/
def wordsWriteGo (dicts : List DictM) (dflt : DictM) (args : List Str) (b : Nat)
    (sep : Str) (j : Nat) : Nat → Nat → Nat → Option Str
  | 0, _, idx => if idx = 0 then some [] else none
  | k + 1, i, idx => do
    let w ← wordFn.gwrite dicts dflt (if i = j then [str2n "U"] else []) (idx % b)
    let rest ← wordsWriteGo dicts dflt args b sep j k (i + 1) (idx / b)
    some ((if i = 0 then [] else sep) ++ w ++ rest)

/-- The `words` generator (expr/generator.rs lines 189-273). -/
def wordsFn : GenFunc where
  gname := str2n "words"
  gsize := fun dicts dflt args => do
    let (count, _, upper) ← wordsParseArgs args
    let base ← wordFn.gsize dicts dflt args
    let n := u256SatPow base count
    let n := if upper then satMul n count else n
    if n = 0 then none else some n
  gwrite := fun dicts dflt args i => do
    let (count, sep, upper) ← wordsParseArgs args
    let base ← wordFn.gsize dicts dflt args
    let (i, j) :=
      if upper then (i / count, i % count)
      else (i, count)
    wordsWriteGo dicts dflt args base sep (if upper then j else count) count 0 i
  grepr := fun _ dflt args =>
    let hash := (dictHashOfArgs args).getD dflt.hash
    some (str2n "words" ++ fmtWithHash hash args)

/-- `Context::default()`: the built-in `word` and `words` generators
over a default dictionary. -/
def defaultCtx (dflt : DictM) : Ctx := mkContext [wordFn, wordsFn] [] dflt

/-- Modelled from the spec: the BLAKE2b-256 content hash of the built-in
EFF large wordlist.  The wordlist data file
(`data/eff_large_wordlist.txt`, embedded at build time) is not under
src/; §4.1 of the spec fixes its hash to the constant
`323606b363ebdedff9f562cb84c50df1a21cbd4b597ff4566df92bb9f2cefdfd`,
which "must be reproduced exactly". -/
def effHashBytes : List Nat :=
  [0x32, 0x36, 0x06, 0xb3, 0x63, 0xeb, 0xde, 0xdf, 0xf9, 0xf5, 0x62, 0xcb, 0x84, 0xc5,
   0x0d, 0xf1, 0xa2, 0x1c, 0xbd, 0x4b, 0x59, 0x7f, 0xf4, 0x56, 0x6d, 0xf9, 0x2b, 0xb9,
   0xf2, 0xce, 0xfd, 0xfd]

/-- A `Site` (data.rs): url, optional username, schema root, increment.
The expression context is the default context. -/
structure SiteM where
  url : Str
  username : Option Str
  schema : Node
  increment : Nat

/-- The `Derivation` display (crypto.rs lines 82-93):
`write_tsv!(f, "v3", url, username, schema, increment)` — the five
fields TSV-escaped and joined with tabs; the schema field is the
canonical repr of the expression, and an absent username is empty. -/
def derivationRecord (pr : Nat → Bool) (ctx : Ctx) (s : SiteM) : Option Str := do
  let schemaRepr ← reprN pr ctx false s.schema
  some (tsvEscape (str2n "v3") ++ [9] ++ tsvEscape s.url ++ [9]
    ++ tsvEscape (s.username.getD []) ++ [9] ++ tsvEscape schemaRepr ++ [9]
    ++ tsvEscape (decRepr s.increment))

/-- `Site::salt` (crypto.rs lines 36-40): BLAKE2b-256 over the UTF-8
bytes of the derivation record. -/
def siteSalt (pr : Nat → Bool) (ctx : Ctx) (s : SiteM) : Option (List Nat) :=
  (derivationRecord pr ctx s).map (fun r => blake2b256 (utf8Bytes r))

/-- Modelled from the spec: the WHATWG URL parser of the external `url`
crate, as an abstract model.  `parseSer` is `Url::parse` composed with
serialization (`String::from(url)`), since a parsed `Url` is only ever
serialized back; `setUser` is `set_username` followed by serialization.
`parse_canon` is §4.2's contract that the result is a *canonical* URL
string ("`normalize(input) -> canonical_url` performs WHATWG URL
parsing … Returns the parsed URL serialized back to a string"):
parsing a string the parser itself produced succeeds and re-serializes
to the same string. -/
structure UrlModel where
  parseSer : Str → Option Str
  setUser : Str → Str → Option Str
  parse_canon : ∀ s u, parseSer s = some u → parseSer u = some u

/-- `normalize` (url.rs lines 26-35): parse the input, retrying with
`https://` prepended on failure; with a username, set it on the parsed
URL; serialize the result. -/
def normalize (W : UrlModel) (input : Str) (username : Option Str) : Option Str :=
  match (match W.parseSer input with
         | some u => some u
         | none => W.parseSer (str2n "https://" ++ input)) with
  | none => none
  | some u =>
    match username with
    | none => some u
    | some name => W.setUser u name

/-- A concrete instance of the URL model for evaluation: a string
parses iff it already starts with `https://`, and then it is its own
serialization. -/
def toyUrlParse (s : Str) : Option Str :=
  if (str2n "https://").isPrefixOf s then some s else none

/-- The toy model: `toyUrlParse`, no username support. -/
def toyUrl : UrlModel :=
  ⟨toyUrlParse, fun _ _ => none, by
    intro s u h
    unfold toyUrlParse at h ⊢
    by_cases hp : ((str2n "https://").isPrefixOf s) = true
    · rw [if_pos hp] at h
      cases h
      rw [if_pos hp]
    · rw [if_neg hp] at h
      cases h⟩

/-- The default dictionary of the model: the EFF large wordlist is an
embedded data file, so only its content hash (fixed by the spec) is
carried; no claim evaluated here reads the word list itself. -/
def effDict : DictM := ⟨[], effHashBytes⟩

/-- The site of claim C1: url `https://google.com/`, no username,
schema `{words}`, increment 0. -/
def c1site1 : SiteM :=
  ⟨str2n "https://google.com/", none, Node.generator (str2n "words"), 0⟩

/-- The C1 site with the username changed to `me@example.com`. -/
def c1site2 : SiteM :=
  ⟨str2n "https://google.com/", some (str2n "me@example.com"),
   Node.generator (str2n "words"), 0⟩

/-- The parse of the schema `(a[b]){2}` (claim C3): a `Count` of a
`List`. -/
def c3parsed : Node :=
  Node.count (Node.list [Node.literal (str2n "a"), Node.chars [⟨98, 98⟩]]) 2 2

/-- The parse of `a[b]{2}`, the canonical repr of `c3parsed`: the
parentheses were lost, so the count now binds only the class. -/
def c3reparsed : Node :=
  Node.list [Node.literal (str2n "a"), Node.count (Node.chars [⟨98, 98⟩]) 2 2]

/-- The counterexample expression for claim C2: the parse of the valid
schema `([a-z][a-z]{0,1}){2}`. -/
def c2expr : Node :=
  Node.count (Node.list [Node.chars [⟨97, 122⟩],
    Node.count (Node.chars [⟨97, 122⟩]) 0 1]) 2 2

/-- A well-formed character range: ordered endpoints, both Unicode
scalar values. -/
def validR (r : CRange) : Bool :=
  decide (r.start ≤ r.last) && isScalar r.start && isScalar r.last

/-- Chained well-formedness of a range list: every range is valid and
strictly below the next (`r.last < r'.start`), so the denoted scalar
sets are sorted, disjoint and increasing — the invariant
`Chars::from_ranges` is meant to establish. -/
def goodRanges : List CRange → Bool
  | [] => true
  | [r] => validR r
  | r1 :: r2 :: rs => validR r1 && decide (r1.last < r2.start) && goodRanges (r2 :: rs)

mutual

/-- Fixed-shape expressions: `RigidP ctx n L S` states that `n` is
generator-free with well-formed character classes, has exactly
representable size `S` (no `U256` saturation anywhere), and that every
rendering has the one fixed length `L`; `Count` bounds must be
degenerate (`min = max`).  The restriction of claim C2 to such
expressions is proved below. -/
def RigidP (ctx : Ctx) : Node → Nat → Nat → Prop
  | .literal s, L, S => L = s.length ∧ S = 1
  | .chars cs, L, S =>
      goodRanges cs = true ∧ cs ≠ [] ∧ L = 1 ∧ charsSumSize cs = some S
  | .list ns, L, S => RigidL ctx ns L S
  | .count c mn mx, L, S =>
      ∃ Lc b, RigidP ctx c Lc b ∧ mn = mx ∧ mx + 1 < 2 ^ 32 ∧
        b ^ (mx + 1) ≤ U256MAX ∧ L = mx * Lc ∧ S = b ^ mx
  | .generator _, _, _ => False

/-- Componentwise fixed shape for the children of a `List` node, with
the product of the sizes staying below the saturation cap. -/
def RigidL (ctx : Ctx) : List Node → Nat → Nat → Prop
  | [], L, S => L = 0 ∧ S = 1
  | n :: ns, L, S =>
      ∃ L1 S1 L2 S2, RigidP ctx n L1 S1 ∧ RigidL ctx ns L2 S2 ∧
        L = L1 + L2 ∧ S = S1 * S2 ∧ S1 * S2 ≤ U256MAX

end

/-- The expressions for which claim C2's injectivity is proved: either
fixed-shape throughout, or a root `Count` with arbitrary ordered bounds
over a fixed-shape body of positive rendering length. -/
def Sane (ctx : Ctx) (n : Node) : Prop :=
  (∃ L S, RigidP ctx n L S) ∨
  (match n with
   | .count c mn mx =>
       ∃ Lc b, RigidP ctx c Lc b ∧ 1 ≤ Lc ∧ mn ≤ mx ∧ mx + 1 < 2 ^ 32 ∧
         b ^ (mx + 1) ≤ U256MAX
   | _ => False)

theorem listSwap_length (l : List CRange) (i j : Nat) :
    (listSwap l i j).length = l.length := by
  unfold listSwap
  cases l[i]? <;> cases l[j]? <;> simp

theorem fuelOf_pos (n : Node) : 1 ≤ fuelOf n := by
  cases n <;> simp [fuelOf]

theorem fuelOfL_pos (ns : List Node) : 1 ≤ fuelOfL ns := by
  cases ns <;> simp [fuelOfL]

/-- Any sufficient fuel computes the same result as the canonical fuel,
for all three mutually recursive rendering functions. -/
theorem writeF_suff (f : Nat) :
    (∀ ctx n i, fuelOf n ≤ f → writeNF f ctx n i = writeNF (fuelOf n) ctx n i) ∧
    (∀ ctx ns i, fuelOfL ns ≤ f → writeLF f ctx ns i = writeLF (fuelOfL ns) ctx ns i) ∧
    (∀ ctx c b k idx, k + 1 + fuelOf c ≤ f →
      writeTimesF f ctx c b k idx = writeTimesF (k + 1 + fuelOf c) ctx c b k idx) := by
  induction f using Nat.strong_induction_on with
  | _ f ih =>
  obtain rfl | ⟨g, rfl⟩ : f = 0 ∨ ∃ g, f = g + 1 := by
    rcases f with _ | g
    · exact Or.inl rfl
    · exact Or.inr ⟨g, rfl⟩
  · refine ⟨fun ctx n i h => absurd h (by have := fuelOf_pos n; omega),
      fun ctx ns i h => absurd h (by have := fuelOfL_pos ns; omega),
      fun ctx c b k idx h => absurd h (by have := fuelOf_pos c; omega)⟩
  refine ⟨fun ctx n i h => ?_, fun ctx ns i h => ?_, fun ctx c b k idx h => ?_⟩
  · -- writeNF
    cases n with
    | literal s => simp only [writeNF, fuelOf]
    | chars cs => simp only [writeNF, fuelOf]
    | generator raw => simp only [writeNF, fuelOf]
    | list ns =>
      simp only [fuelOf] at h ⊢
      simp only [writeNF]
      rw [(ih g (by omega)).2.1 ctx ns i (by omega)]
    | count c mn mx =>
      simp only [fuelOf] at h ⊢
      rw [show fuelOf c + mx + 2 = (fuelOf c + mx + 1) + 1 from rfl]
      simp only [writeNF]
      cases hb : sizeN ctx c with
      | none => rfl
      | some b =>
        simp only [Option.bind_eq_bind, Option.some_bind]
        by_cases hb0 : b = 0
        · simp [hb0]
        · simp only [hb0, if_false]
          rcases hcl : countLoop b mn i (u256SatPow b mn) with ⟨cnt, idx⟩
          simp only [hcl]
          by_cases hcm : cnt ≤ mx
          · simp only [hcm, if_true]
            rw [(ih g (by omega)).2.2 ctx c b cnt idx (by omega),
              (ih (fuelOf c + mx + 1) (by omega)).2.2 ctx c b cnt idx (by omega)]
          · simp [hcm]
  · -- writeLF
    cases ns with
    | nil => simp only [writeLF, fuelOfL]
    | cons n ns =>
      simp only [fuelOfL] at h ⊢
      simp only [writeLF]
      cases hs : sizeN ctx n with
      | none => rfl
      | some sz =>
        simp only [Option.bind_eq_bind, Option.some_bind]
        by_cases hsz : sz = 0
        · simp [hsz]
        · simp only [hsz, if_false]
          rw [(ih g (by omega)).1 ctx n (i % sz) (by omega),
            (ih (fuelOf n + fuelOfL ns) (by omega)).1 ctx n (i % sz) (by omega),
            (ih g (by omega)).2.1 ctx ns (i / sz) (by omega),
            (ih (fuelOf n + fuelOfL ns) (by omega)).2.1 ctx ns (i / sz) (by omega)]
  · -- writeTimesF
    rw [show k + 1 + fuelOf c = (k + fuelOf c) + 1 by omega]
    cases k with
    | zero => simp only [writeTimesF]
    | succ k =>
      simp only [writeTimesF]
      rw [(ih g (by omega)).1 ctx c (idx % b) (by omega),
        (ih (k + 1 + fuelOf c) (by omega)).1 ctx c (idx % b) (by omega),
        (ih g (by omega)).2.2 ctx c b k (idx / b) (by omega)]

/-- Any fuel of at least `fuelOf n` computes `writeN`. -/
theorem writeNF_suff (f : Nat) (ctx : Ctx) (n : Node) (i : Nat) (h : fuelOf n ≤ f) :
    writeNF f ctx n i = writeN ctx n i :=
  (writeF_suff f).1 ctx n i h

theorem U256MAX_pos : 1 ≤ U256MAX := by
  have : (2:Nat) ^ 1 ≤ 2 ^ 256 := Nat.pow_le_pow_right (by omega) (by omega)
  simp only [U256MAX, U256MOD]
  omega

theorem satMul_le (a b : Nat) : satMul a b ≤ U256MAX := by
  simp [satMul]

/-- When the exponent fits in the remaining fuel and the true product
fits in `U256`, the square-and-multiply loop is exact. -/
theorem u256SatPowGo_exact (fuel : Nat) : ∀ res base n : Nat, n < 2 ^ fuel →
    res * base ^ n ≤ U256MAX → u256SatPowGo fuel res base n = res * base ^ n := by
  induction fuel with
  | zero =>
    intro res base n hn h
    interval_cases n
    simp [u256SatPowGo]
  | succ fuel ih =>
    intro res base n hn h
    rw [u256SatPowGo]
    by_cases hn0 : n = 0
    · simp [hn0]
    · simp only [hn0, if_false]
      have hn1 : 1 ≤ n := Nat.one_le_iff_ne_zero.mpr hn0
      have hhalf : n / 2 < 2 ^ fuel := by
        have : 2 ^ (fuel + 1) = 2 * 2 ^ fuel := by ring
        omega
      rcases Nat.eq_zero_or_pos base with hbase0 | hbase1
      · subst hbase0
        have h0 : (0:Nat) ^ n = 0 := Nat.zero_pow (by omega)
        rcases Nat.mod_two_eq_zero_or_one n with hp | hp
        · have hr0 : (if n % 2 = 1 then satMul res 0 else res) = res := by
            simp [hp]
          have hsq : satMul 0 0 = 0 := by simp [satMul]
          rw [hr0, hsq, ih res 0 (n / 2) hhalf (by
            rw [Nat.zero_pow (by omega)]
            simp)]
          rw [Nat.zero_pow (by omega), h0]
        · have hr0 : (if n % 2 = 1 then satMul res 0 else res) = 0 := by
            simp [hp, satMul]
          have hsq : satMul 0 0 = 0 := by simp [satMul]
          rw [hr0, hsq, ih 0 0 (n / 2) hhalf (by simp), h0]
          simp
      · rcases Nat.eq_zero_or_pos res with hres0 | hres1
        · subst hres0
          have hr0 : (if n % 2 = 1 then satMul 0 base else 0) = 0 := by
            split <;> simp [satMul]
          rw [hr0, ih 0 _ (n / 2) hhalf (by simp)]
          simp
        · -- res ≥ 1, base ≥ 1
          have hbn : base ≤ base ^ n := by
            conv_lhs => rw [← pow_one base]
            exact Nat.pow_le_pow_right hbase1 hn1
          have hrb : res * base ≤ U256MAX :=
            le_trans (Nat.mul_le_mul_left res hbn) h
          have hr' : (if n % 2 = 1 then satMul res base else res) = res * base ^ (n % 2) := by
            rcases Nat.mod_two_eq_zero_or_one n with hp | hp
            · simp [hp]
            · simp [hp, satMul, Nat.min_eq_left hrb]
          rw [hr']
          rcases Nat.eq_zero_or_pos (n / 2) with hh | hh
          · have h1 : n = 1 := by omega
            subst h1
            rw [hh, ih _ _ 0 (Nat.pos_pow_of_pos _ (by omega)) (by norm_num; exact hrb)]
            norm_num
          · have hn2 : 2 ≤ n := by omega
            have hbb : base * base ≤ U256MAX := by
              have h1 : base * base = base ^ 2 := (pow_two base).symm
              have h2 : base ^ 2 ≤ base ^ n := Nat.pow_le_pow_right hbase1 hn2
              have h3 : base ^ n ≤ res * base ^ n := Nat.le_mul_of_pos_left _ hres1
              omega
            have hsq : satMul base base = base * base := by
              simp [satMul, Nat.min_eq_left hbb]
            rw [hsq]
            have hpow : res * base ^ (n % 2) * (base * base) ^ (n / 2) = res * base ^ n := by
              rw [← pow_two, ← pow_mul, Nat.mul_assoc, ← pow_add]
              congr 2
              omega
            rw [ih _ _ (n / 2) hhalf (by rw [hpow]; exact h), hpow]

/-- `u256_saturating_pow` is the true power when the exponent fits in a
64-bit `Word` and the result fits in `U256`. -/
theorem u256SatPow_exact (base n : Nat) (hn : n < 2 ^ 64) (h : base ^ n ≤ U256MAX) :
    u256SatPow base n = base ^ n := by
  rw [u256SatPow]
  by_cases hn0 : n = 0
  · simp [hn0]
  · simp only [hn0, if_false]
    rw [u256SatPowGo_exact 64 1 base n hn (by simpa using h)]
    simp

/-- Geometric series over `Nat`: `(b-1) * (1 + b + … + b^(t-1)) + 1 = b^t`. -/
theorem geom_mul (b t : Nat) (hb : 1 ≤ b) :
    (b - 1) * (∑ k ∈ Finset.range t, b ^ k) + 1 = b ^ t := by
  induction t with
  | zero => simp
  | succ t ih =>
    rw [Finset.sum_range_succ, Nat.mul_add, pow_succ]
    have : (b - 1) * b ^ t + b ^ t = b ^ t * b := by
      have h1 : (b - 1) * b ^ t + b ^ t = ((b - 1) + 1) * b ^ t := by ring
      rw [h1, Nat.sub_add_cancel hb]
      ring
    omega

theorem bitsLenF_pos (fuel n : Nat) (hf : n < 2 ^ fuel) (hn : 1 ≤ n) :
    1 ≤ bitsLenF fuel n := by
  cases fuel with
  | zero => simp at hf; omega
  | succ fuel =>
    rw [bitsLenF]
    simp only [show ¬n = 0 by omega, if_false]
    omega

theorem bitsLen_eq_one (n : Nat) (hn : 1 ≤ n) (h2 : n < U256MOD) :
    bitsLen n = 1 ↔ n = 1 := by
  constructor
  · intro h
    rw [bitsLen, bitsLenF] at h
    simp only [show ¬n = 0 by omega, if_false] at h
    have hz : bitsLenF 255 (n / 2) = 0 := by omega
    by_contra hne
    have h1 : 1 ≤ n / 2 := by omega
    have h255 : n / 2 < 2 ^ 255 := by
      have : 2 ^ 256 = 2 * 2 ^ 255 := by ring
      simp only [U256MOD] at h2
      omega
    have := bitsLenF_pos 255 (n / 2) h255 h1
    omega
  · intro h
    subst h
    decide

/-- The rejection loop only ever returns a value below `n`. -/
theorem secretUniformLoop_lt (stream : Nat → Nat) (n nBytes hiMask : Nat) :
    ∀ fuel pos v consumed,
      secretUniformLoop stream n nBytes hiMask fuel pos = some (v, consumed) → v < n := by
  intro fuel
  induction fuel with
  | zero =>
    intro pos v c h
    simp [secretUniformLoop] at h
  | succ fuel ih =>
    intro pos v c h
    rw [secretUniformLoop] at h
    split at h
    · rename_i hlt
      injection h with h'
      have hv : leBytesVal (maskTop hiMask (drawBytes stream pos nBytes)) = v :=
        congrArg Prod.fst h'
      omega
    · exact ih _ _ _ h

/-- C5: for every secret (modelled as an arbitrary ChaCha20 keystream)
and every nonzero 256-bit `n`, any value `secret_uniform` returns is
strictly below `n`; and for `n = 1` it returns 0 immediately, consuming
no keystream bytes. -/
theorem secret_uniform_in_range (stream : Nat → Nat) (n fuel : Nat)
    (hn : 1 ≤ n) (hn2 : n < U256MOD) :
    (n = 1 → secretUniform stream n fuel = some (0, 0)) ∧
    (∀ v consumed, secretUniform stream n fuel = some (v, consumed) → v < n) := by
  constructor
  · intro h1
    subst h1
    rw [secretUniform]
    norm_num [show bitsLen 1 = 1 from by decide]
  · intro v consumed h
    by_cases hb : bitsLen n = 1
    · rw [secretUniform] at h
      simp only [hb, if_true] at h
      injection h with h'
      have hv : v = 0 := (congrArg Prod.fst h').symm
      have h1 : n = 1 := (bitsLen_eq_one n hn hn2).mp hb
      omega
    · rw [secretUniform] at h
      simp only [hb, if_false] at h
      exact secretUniformLoop_lt stream n _ _ fuel 0 v consumed h

/-- C5 (witness): at `n = 1` with the all-zero stream. -/
theorem secret_uniform_in_range_witness :
    secretUniform (fun _ => 0) 1 1 = some (0, 0) ∧ (0 : Nat) < 1 :=
  ⟨(secret_uniform_in_range (fun _ => 0) 1 1 (by omega) (by norm_num [U256MOD])).1 rfl,
   (secret_uniform_in_range (fun _ => 0) 1 1 (by omega) (by norm_num [U256MOD])).2 0 0
     ((secret_uniform_in_range (fun _ => 0) 1 1 (by omega)
       (by norm_num [U256MOD])).1 rfl)⟩

/-- C8: dictionaries built from two iterators yielding the same multiset
of non-empty tokens have equal `words()` and equal 32-byte hash. -/
theorem dict_from_iter_perm (l1 l2 : List Str) (h : l1.Perm l2)
    (_hne : ∀ s ∈ l1, s ≠ []) :
    (buildDict l1).words = (buildDict l2).words ∧
    (buildDict l1).hash = (buildDict l2).hash := by
  have hw : dictWords l1 = dictWords l2 := by
    unfold dictWords
    congr 1
    have hs1 := List.sorted_insertionSort (fun a b => strLe a b = true)
      (l1.filter (fun t => !t.isEmpty))
    have hs2 := List.sorted_insertionSort (fun a b => strLe a b = true)
      (l2.filter (fun t => !t.isEmpty))
    exact List.eq_of_perm_of_sorted
      ((List.perm_insertionSort _ _).trans
        ((h.filter _).trans (List.perm_insertionSort _ _).symm)) hs1 hs2
  exact ⟨by simp [buildDict, hw], by simp [buildDict, hw]⟩

/-- C8 (witness): the token lists `["b", "a"]` and `["a", "b"]`. -/
theorem dict_from_iter_perm_witness :
    (buildDict [str2n "b", str2n "a"]).words = (buildDict [str2n "a", str2n "b"]).words ∧
    (buildDict [str2n "b", str2n "a"]).hash = (buildDict [str2n "a", str2n "b"]).hash :=
  dict_from_iter_perm [str2n "b", str2n "a"] [str2n "a", str2n "b"]
    (by decide) (by decide)

/-- C2 (counterexample): rendering is not injective on the index range.
For the valid schema `([a-z][a-z]{0,1}){2}` (size 492804 in the empty
context), the distinct in-range indices 728 and 36504 both render the
string `"aab"`, so the number of distinct rendered strings is less than
the size. -/
theorem write_not_injective_cex :
    sizeN emptyCtx c2expr = some 492804 ∧
    (728 : Nat) ≠ 36504 ∧ 728 < 492804 ∧ 36504 < 492804 ∧
    writeN emptyCtx c2expr 728 = writeN emptyCtx c2expr 36504 ∧
    writeN emptyCtx c2expr 728 = some (str2n "aab") := by decide

/-- C4 (counterexample): `Node::size` does not return a value for every
`Count` node with `min ≤ max`: for child `[a-d]` (size 4) and bounds
`{0,128}` the saturated closed form leaves a non-zero remainder and the
`assert!(rem.is_zero())` aborts. -/
theorem count_size_aborts_cex :
    (0 : Nat) ≤ 128 ∧
    sizeN emptyCtx (Node.chars [⟨97, 100⟩]) = some 4 ∧
    sizeN emptyCtx (Node.count (Node.chars [⟨97, 100⟩]) 0 128) = none := by decide

/-- `Node::size` on a `Count` node with computable child size, ordered
bounds and no `U256` saturation is exactly the geometric sum
`Σ_{k=min..max} b^k` (computed via `max - min + 1` when `b = 1` and via
the closed form `(b^(max+1) - b^min) / (b - 1)` otherwise). -/
theorem sizeN_count_sum (ctx : Ctx) (c : Node) (mn mx b : Nat)
    (hb : sizeN ctx c = some b) (hb1 : 1 ≤ b) (hmm : mn ≤ mx)
    (hfit : mx - mn + 1 < 2 ^ 32) (hsat : b ^ (mx + 1) < U256MOD) :
    sizeN ctx (Node.count c mn mx) = some (∑ k ∈ Finset.Icc mn mx, b ^ k) := by
  simp only [sizeN, hb, Option.bind_eq_bind, Option.some_bind]
  by_cases h1 : b = 1
  · subst h1
    have hsum : ∑ k ∈ Finset.Icc mn mx, (1 : Nat) ^ k = mx - mn + 1 := by
      simp [Nat.card_Icc]
      omega
    rw [if_pos rfl, if_pos ⟨hmm, hfit⟩, hsum]
  · have h2b : 2 ≤ b := by omega
    have hmx256 : mx + 1 < 256 := by
      by_contra hc
      push_neg at hc
      have hx1 : (2 : Nat) ^ 256 ≤ 2 ^ (mx + 1) := Nat.pow_le_pow_right (by omega) hc
      have hx2 : (2 : Nat) ^ (mx + 1) ≤ b ^ (mx + 1) := Nat.pow_le_pow_left h2b _
      simp only [U256MOD] at hsat
      omega
    have hm1 : mx + 1 < 2 ^ 32 := by
      have : (256 : Nat) < 2 ^ 32 := by norm_num
      omega
    have hle : b ^ (mx + 1) ≤ U256MAX := by
      simp only [U256MAX]
      omega
    have hpow1 : u256SatPow b (mx + 1) = b ^ (mx + 1) :=
      u256SatPow_exact _ _ (by
        have : (2 : Nat) ^ 32 ≤ 2 ^ 64 := Nat.pow_le_pow_right (by omega) (by omega)
        omega) hle
    have hpow2 : u256SatPow b mn = b ^ mn :=
      u256SatPow_exact _ _ (by
        have h32 : (2 : Nat) ^ 32 ≤ 2 ^ 64 := Nat.pow_le_pow_right (by omega) (by omega)
        omega) (le_trans (Nat.pow_le_pow_right (by omega) (by omega)) hle)
    have hmono : b ^ mn ≤ b ^ (mx + 1) := Nat.pow_le_pow_right (by omega) (by omega)
    have g1 := geom_mul b (mx + 1) (by omega)
    have g2 := geom_mul b mn (by omega)
    have hsplit : ∑ k ∈ Finset.range (mx + 1), b ^ k
        = ∑ k ∈ Finset.range mn, b ^ k + ∑ k ∈ Finset.Icc mn mx, b ^ k := by
      rw [Finset.range_eq_Ico, ← Nat.Ico_succ_right]
      exact (Finset.sum_Ico_consecutive _ (by omega) (by omega)).symm
    have hT : b ^ (mx + 1) - b ^ mn = (b - 1) * (∑ k ∈ Finset.Icc mn mx, b ^ k) := by
      rw [hsplit, Nat.mul_add] at g1
      omega
    have hTpos : 1 ≤ ∑ k ∈ Finset.Icc mn mx, b ^ k := by
      have hmem : mn ∈ Finset.Icc mn mx := Finset.mem_Icc.mpr ⟨le_refl mn, hmm⟩
      have hs : b ^ mn ≤ ∑ k ∈ Finset.Icc mn mx, b ^ k :=
        Finset.single_le_sum (fun k _ => Nat.zero_le (b ^ k)) hmem
      have hp : 1 ≤ b ^ mn := Nat.one_le_pow _ _ (by omega)
      omega
    rw [if_neg h1, if_pos hm1, hpow1, hpow2, if_pos hmono, if_neg (by omega : ¬b = 0),
      if_pos (by rw [hT]; exact Nat.mul_mod_right _ _), hT,
      Nat.mul_div_cancel_left _ (by omega : 0 < b - 1), if_neg (by omega)]

/-- C4 (amended): for a `Count` node whose child size `b` is computed,
with `min ≤ max`, `max - min + 1` representable in `u32`, and no
`U256` saturation (`b^(max+1) < 2^256`), `Node::size` returns exactly
the geometric sum `Σ_{k=min..max} b^k` (which the code computes via
`max - min + 1` when `b = 1` and via the closed form
`(b^(max+1) - b^min) / (b - 1)` otherwise). -/
theorem count_size_geom_sum (ctx : Ctx) (c : Node) (mn mx b : Nat)
    (hb : sizeN ctx c = some b) (hb1 : 1 ≤ b) (hmm : mn ≤ mx)
    (hfit : mx - mn + 1 < 2 ^ 32) (hsat : b ^ (mx + 1) < U256MOD) :
    sizeN ctx (Node.count c mn mx) = some (∑ k ∈ Finset.Icc mn mx, b ^ k) :=
  sizeN_count_sum ctx c mn mx b hb hb1 hmm hfit hsat

/-- C4 (witness): child `[a-d]` with bounds `{0,3}`:
size is `1 + 4 + 16 + 64 = 85`. -/
theorem count_size_geom_sum_witness :
    sizeN emptyCtx (Node.count (Node.chars [⟨97, 100⟩]) 0 3)
      = some (∑ k ∈ Finset.Icc 0 3, 4 ^ k) :=
  count_size_geom_sum emptyCtx (Node.chars [⟨97, 100⟩]) 0 3 4 (by decide)
    (by decide) (by decide) (by decide) (by decide)

/-- C6: for the input ranges {U+D7FF..U+D7FF, U+E000..U+E000} — two
ranges adjacent across the surrogate gap, which the claim says must be
coalesced into a class covering both scalars — `Chars::from_ranges`
silently drops the second range (`next_char(U+D7FF)` lands on the
surrogate block because of the mistyped `'\u{d799}' => 0xe00` arm, the
merge loop breaks, and `drain` discards the remaining ranges): the
resulting class has size 1 instead of 2. -/
theorem from_ranges_drops_range :
    fromRanges [⟨0xD7FF, 0xD7FF⟩, ⟨0xE000, 0xE000⟩] = [⟨0xD7FF, 0xD7FF⟩] ∧
    charsSumSize (fromRanges [⟨0xD7FF, 0xD7FF⟩, ⟨0xE000, 0xE000⟩]) = some 1 := by decide

set_option maxRecDepth 100000 in
set_option maxHeartbeats 4000000 in
/-- C1: the schema string `"{words}"` parses to the `words` generator
node; for the site `(url = "https://google.com/", username = none,
schema = {words}, increment = 0)` under the default context over the
EFF default dictionary, the derivation record is exactly the TSV string
`"v3\thttps://google.com/\t\t{words|323606b363ebdedff9f562cb84c50df1a21cbd4b597ff4566df92bb9f2cefdfd}\t0"`
and its BLAKE2b-256 salt is
`54fdc7b0a714e494b08563043429c9343e32680cbc7a9d4b23287db322c583ba`;
changing only the username to `"me@example.com"` makes the salt
`8c6ffa25db380192f6aa494eb01d281aae89d39d1f8e6ea343f60b97e6d26a9a`.
(The printability predicate and the word list of the default
dictionary are instantiated concretely; neither is consulted on this
code path — the schema contains no character class and the repr of a
generator uses only the dictionary hash.) -/
theorem derivation_salt_c1 :
    parseSchema (str2n "{words}") = some (Node.generator (str2n "words")) ∧
    derivationRecord (fun _ => true) (defaultCtx effDict) c1site1
      = some (str2n "v3\thttps://google.com/\t\t{words|323606b363ebdedff9f562cb84c50df1a21cbd4b597ff4566df92bb9f2cefdfd}\t0") ∧
    (siteSalt (fun _ => true) (defaultCtx effDict) c1site1).map hexEncode
      = some (str2n "54fdc7b0a714e494b08563043429c9343e32680cbc7a9d4b23287db322c583ba") ∧
    (siteSalt (fun _ => true) (defaultCtx effDict) c1site2).map hexEncode
      = some (str2n "8c6ffa25db380192f6aa494eb01d281aae89d39d1f8e6ea343f60b97e6d26a9a") :=
  ⟨rfl, rfl, by decide, by decide⟩

/-- C7 (counterexample): the schema
`([[:lower:]][[:digit:]][[:lower:]]){3}` parses, and its size in the
empty context is `(26·10·26)^3 = 6760^3 = 308915776000`, which is not
the `316406448000` the claim (and §8 D of the spec) states: the spec's
arithmetic for `(26·10·26)^3` is wrong. -/
theorem schema_size_posix_cex :
    (parseSchema (str2n "([[:lower:]][[:digit:]][[:lower:]]){3}")).map (sizeN emptyCtx)
      = some (some 308915776000) ∧ (308915776000 : Nat) ≠ 316406448000 :=
  ⟨rfl, by decide⟩

/-- C7 (amended): in every context, the schema
`([[:lower:]][[:digit:]][[:lower:]]){3}` parses and has size
`(26·10·26)^3 = 308915776000`. -/
theorem schema_size_posix (ctx : Ctx) :
    (parseSchema (str2n "([[:lower:]][[:digit:]][[:lower:]]){3}")).map (sizeN ctx)
      = some (some 308915776000) := rfl

/-- C10: the parser accepts count bounds with `min > max` — `"a{5,2}"`
parses successfully to `Count(Literal "a", 5, 2)`, and likewise
`"[a-z]{5,2}"` — and `Node::size` of such a node aborts (for a child of
size 1 the `min ≤ max` comparison fails, otherwise the checked
subtraction `b^(max+1) - b^min` underflows and its `unwrap` panics),
modelled as `none`, instead of returning a value or an error. -/
theorem count_min_gt_max_parses_then_size_aborts :
    parseSchema (str2n "a{5,2}") = some (Node.count (Node.literal (str2n "a")) 5 2) ∧
    sizeN emptyCtx (Node.count (Node.literal (str2n "a")) 5 2) = none ∧
    parseSchema (str2n "[a-z]{5,2}") = some (Node.count (Node.chars [⟨97, 122⟩]) 5 2) ∧
    sizeN emptyCtx (Node.count (Node.chars [⟨97, 122⟩]) 5 2) = none :=
  ⟨rfl, rfl, rfl, rfl⟩

/-- C9: URL normalization (with no username) is idempotent — for every
WHATWG parser satisfying the canonical-serialization contract of §4.2
and every input `x` on which `normalize` succeeds with output `y`,
normalizing `y` succeeds and returns `y` itself. -/
theorem normalize_idempotent (W : UrlModel) (x y : Str)
    (h : normalize W x none = some y) : normalize W y none = some y := by
  unfold normalize at h ⊢
  rcases hx : W.parseSer x with _ | u
  · rw [hx] at h
    rcases hx2 : W.parseSer (str2n "https://" ++ x) with _ | u
    · rw [hx2] at h
      cases h
    · rw [hx2] at h
      cases h
      rw [W.parse_canon _ _ hx2]
  · rw [hx] at h
    cases h
    rw [W.parse_canon _ _ hx]

/-- C9 (witness): in the toy model, `"example"` normalizes to
`"https://example"` (via the `https://` fallback), and normalizing
that output returns it unchanged. -/
theorem normalize_idempotent_witness :
    normalize toyUrl (str2n "https://example") none = some (str2n "https://example") :=
  normalize_idempotent toyUrl (str2n "example") (str2n "https://example") (by decide)

/-- `isScalar` in arithmetic form. -/
theorem isScalar_iff (c : Nat) :
    isScalar c = true ↔ c < 0x110000 ∧ (0xD800 ≤ c → 0xE000 ≤ c) := by
  simp only [isScalar, Bool.and_eq_true, decide_eq_true_eq, Bool.not_eq_eq_eq_not,
    Bool.not_true, Bool.and_eq_false_iff, decide_eq_false_iff_not, not_lt]
  omega

/-- `validR` in arithmetic form. -/
theorem validR_iff (r : CRange) :
    validR r = true ↔ r.start ≤ r.last ∧
      (r.start < 0x110000 ∧ (0xD800 ≤ r.start → 0xE000 ≤ r.start)) ∧
      (r.last < 0x110000 ∧ (0xD800 ≤ r.last → 0xE000 ≤ r.last)) := by
  simp only [validR, Bool.and_eq_true, decide_eq_true_eq, isScalar_iff]
  tauto

/-- A valid range has a defined positive size, and its `nth` values are
defined, bounded by the endpoints, and given by the explicit
surrogate-skipping formula. -/
theorem validR_rsize (r : CRange) (h : validR r = true) :
    ∃ s, r.rsize = some s ∧ 1 ≤ s ∧
      ∀ n, n < s → ∃ c, r.nth n = some c ∧ r.start ≤ c ∧ c ≤ r.last ∧
        c = r.start + n +
          (if r.start < 0xD800 ∧ 0xD800 ≤ r.start + n then 0x800 else 0) := by
  rw [validR_iff] at h
  obtain ⟨hsl, ⟨ha1, ha2⟩, hb1, hb2⟩ := h
  refine ⟨if r.start < 0xD800 ∧ 0xE000 ≤ r.last then r.last - r.start + 1 - 0x800
          else r.last - r.start + 1, ?_, ?_, ?_⟩
  · simp only [CRange.rsize, if_pos hsl]
  · by_cases hst : r.start < 0xD800 ∧ 0xE000 ≤ r.last
    · rw [if_pos hst]; omega
    · rw [if_neg hst]; omega
  · intro n hn
    by_cases hst : r.start < 0xD800 ∧ 0xE000 ≤ r.last
    · rw [if_pos hst] at hn
      by_cases hsh : r.start < 0xD800 ∧ 0xD800 ≤ r.start + n
      · refine ⟨r.start + n + 0x800, ?_, by omega, by omega, by rw [if_pos hsh]⟩
        simp only [CRange.nth, if_pos hsh]
        rw [if_pos ⟨(isScalar_iff _).mpr (by omega), by omega⟩]
      · refine ⟨r.start + n, ?_, by omega, by omega, by rw [if_neg hsh]; omega⟩
        simp only [CRange.nth, if_neg hsh]
        rw [if_pos ⟨(isScalar_iff _).mpr (by omega), by omega⟩]
    · rw [if_neg hst] at hn
      push_neg at hst
      have hsh : ¬(r.start < 0xD800 ∧ 0xD800 ≤ r.start + n) := by omega
      refine ⟨r.start + n, ?_, by omega, by omega, by rw [if_neg hsh]; omega⟩
      simp only [CRange.nth, if_neg hsh]
      rw [if_pos ⟨(isScalar_iff _).mpr (by omega), by omega⟩]

/-- Decomposition of `goodRanges` at a cons cell. -/
theorem goodRanges_cons (r : CRange) (rest : List CRange)
    (h : goodRanges (r :: rest) = true) :
    validR r = true ∧ goodRanges rest = true ∧
      ∀ r2 rs, rest = r2 :: rs → r.last < r2.start := by
  cases rest with
  | nil => exact ⟨by simpa [goodRanges] using h, rfl, fun r2 rs he => by cases he⟩
  | cons r2 rs =>
    simp only [goodRanges, Bool.and_eq_true, decide_eq_true_eq] at h
    exact ⟨h.1.1, h.2, fun r2' rs' he => by cases he; exact h.1.2⟩

/-- Unfolding equation for `charsSumSize` at a cons cell. -/
theorem charsSumSize_cons (r : CRange) (rest : List CRange) :
    charsSumSize (r :: rest)
      = r.rsize.bind (fun s => (charsSumSize rest).bind (fun t => some (s + t))) := rfl

/-- Unfolding equation for `charsNth` at a cons cell. -/
theorem charsNth_cons (r : CRange) (rest : List CRange) (n : Nat) :
    charsNth (r :: rest) n
      = r.rsize.bind (fun sz => if n < sz then r.nth n else charsNth rest (n - sz)) := rfl

/-- Over a well-formed range list, `Chars::size` is defined and
positive, `Chars::nth` is defined on the index range with values
bounded below by the first start, and `Chars::nth` is strictly
monotone — in particular injective. -/
theorem goodRanges_nth (cs : List CRange) (hg : goodRanges cs = true) (hne : cs ≠ []) :
    ∃ S, charsSumSize cs = some S ∧ 1 ≤ S ∧
      (∀ i, i < S → ∃ c, charsNth cs i = some c ∧
        (cs.headD ⟨0, 0⟩).start ≤ c ∧ c < 0x110000) ∧
      (∀ i j ci cj, i < j → j < S → charsNth cs i = some ci →
        charsNth cs j = some cj → ci < cj) := by
  induction cs with
  | nil => exact absurd rfl hne
  | cons r rest ih =>
    obtain ⟨hvr, hgrest, hsep⟩ := goodRanges_cons r rest hg
    obtain ⟨s1, hs1, hs1p, hnth1⟩ := validR_rsize r hvr
    have hv := (validR_iff r).mp hvr
    cases rest with
    | nil =>
      have hsum : charsSumSize [r] = some s1 := by
        rw [charsSumSize_cons, hs1]
        rfl
      have hnthe : ∀ n, n < s1 → charsNth [r] n = r.nth n := by
        intro n hn
        rw [charsNth_cons, hs1]
        simp only [Option.some_bind]
        rw [if_pos hn]
      refine ⟨s1, hsum, hs1p, ?_, ?_⟩
      · intro i hi
        obtain ⟨c, hc, hc1, hc2, _⟩ := hnth1 i hi
        exact ⟨c, by rw [hnthe i hi, hc], by simpa using hc1, by omega⟩
      · intro i j ci cj hij hj hci hcj
        obtain ⟨ci', hci', _, _, hfi⟩ := hnth1 i (by omega)
        obtain ⟨cj', hcj', _, _, hfj⟩ := hnth1 j hj
        rw [hnthe i (by omega), hci'] at hci
        rw [hnthe j hj, hcj'] at hcj
        cases hci; cases hcj
        by_cases h1 : r.start < 0xD800 ∧ 0xD800 ≤ r.start + i
        · rw [if_pos h1] at hfi
          by_cases h2 : r.start < 0xD800 ∧ 0xD800 ≤ r.start + j
          · rw [if_pos h2] at hfj; omega
          · rw [if_neg h2] at hfj; omega
        · rw [if_neg h1] at hfi
          by_cases h2 : r.start < 0xD800 ∧ 0xD800 ≤ r.start + j
          · rw [if_pos h2] at hfj; omega
          · rw [if_neg h2] at hfj; omega
    | cons r2 rs =>
      obtain ⟨S2, hS2, hS2p, hdef2, hmono2⟩ := ih hgrest (by simp)
      have hsep2 : r.last < r2.start := hsep r2 rs rfl
      have hsum : charsSumSize (r :: r2 :: rs) = some (s1 + S2) := by
        rw [charsSumSize_cons, hs1, hS2]
        rfl
      have hhead : ∀ n, n < s1 → charsNth (r :: r2 :: rs) n = r.nth n := by
        intro n hn
        rw [charsNth_cons, hs1]
        simp only [Option.some_bind]
        rw [if_pos hn]
      have htail : ∀ n, ¬n < s1 → charsNth (r :: r2 :: rs) n = charsNth (r2 :: rs) (n - s1) := by
        intro n hn
        rw [charsNth_cons, hs1]
        simp only [Option.some_bind]
        rw [if_neg hn]
      refine ⟨s1 + S2, hsum, by omega, ?_, ?_⟩
      · intro i hi
        by_cases hlt : i < s1
        · obtain ⟨c, hc, h1, h2, _⟩ := hnth1 i hlt
          exact ⟨c, by rw [hhead i hlt, hc], by simpa using h1, by omega⟩
        · obtain ⟨c, hc, h1, h2⟩ := hdef2 (i - s1) (by omega)
          refine ⟨c, by rw [htail i hlt, hc], ?_, h2⟩
          simp only [List.headD_cons] at h1 ⊢
          omega
      · intro i j ci cj hij hj hci hcj
        by_cases hltj : j < s1
        · have hlti : i < s1 := by omega
          obtain ⟨ci', hci', _, _, hfi⟩ := hnth1 i hlti
          obtain ⟨cj', hcj', _, _, hfj⟩ := hnth1 j hltj
          rw [hhead i hlti, hci'] at hci
          rw [hhead j hltj, hcj'] at hcj
          cases hci; cases hcj
          by_cases h1 : r.start < 0xD800 ∧ 0xD800 ≤ r.start + i
          · rw [if_pos h1] at hfi
            by_cases h2 : r.start < 0xD800 ∧ 0xD800 ≤ r.start + j
            · rw [if_pos h2] at hfj; omega
            · rw [if_neg h2] at hfj; omega
          · rw [if_neg h1] at hfi
            by_cases h2 : r.start < 0xD800 ∧ 0xD800 ≤ r.start + j
            · rw [if_pos h2] at hfj; omega
            · rw [if_neg h2] at hfj; omega
        · by_cases hlti : i < s1
          · obtain ⟨ci', hci', _, hbi, _⟩ := hnth1 i hlti
            obtain ⟨c, hc, h1, _⟩ := hdef2 (j - s1) (by omega)
            rw [hhead i hlti, hci'] at hci
            rw [htail j hltj, hc] at hcj
            cases hci; cases hcj
            simp only [List.headD_cons] at h1
            omega
          · rw [htail i hlti] at hci
            rw [htail j hltj] at hcj
            exact hmono2 (i - s1) (j - s1) ci cj (by omega) (by omega) hci hcj

/-- Index lower bound: the `k`-th value of a well-formed class is at
least `k` (values strictly increase from index 0). -/
theorem charsNth_ge (cs : List CRange) (hg : goodRanges cs = true) (hne : cs ≠ [])
    (S : Nat) (hS : charsSumSize cs = some S) :
    ∀ k, k < S → ∀ c, charsNth cs k = some c → k ≤ c := by
  obtain ⟨S', hS', _, hdef, hmono⟩ := goodRanges_nth cs hg hne
  obtain rfl : S = S' := by
    rw [hS] at hS'
    exact Option.some.inj hS'
  intro k
  induction k with
  | zero => intro _ c _; omega
  | succ k ihk =>
    intro hk c hc
    obtain ⟨ck, hck, _, _⟩ := hdef k (by omega)
    have h1 := hmono k (k + 1) ck c (by omega) hk hck hc
    have h2 := ihk (by omega) ck hck
    omega

/-- The size of a well-formed class is at most the number of Unicode
scalar values. -/
theorem goodRanges_S_le (cs : List CRange) (hg : goodRanges cs = true) (hne : cs ≠ [])
    (S : Nat) (hS : charsSumSize cs = some S) : S ≤ 0x110000 := by
  obtain ⟨S', hS', hp, hdef, _⟩ := goodRanges_nth cs hg hne
  obtain rfl : S = S' := by
    rw [hS] at hS'
    exact Option.some.inj hS'
  obtain ⟨c, hc, _, hlt⟩ := hdef (S - 1) (by omega)
  have := charsNth_ge cs hg hne S hS (S - 1) (by omega) c hc
  omega

/-- The `Count` subtract loop, characterized: starting at power `b^cnt`,
it finds the unique digit count `t` with
`Σ_{k=cnt}^{t-1} b^k ≤ idx < Σ_{k=cnt}^{t} b^k` and returns the residual
index below `b^t`. -/
theorem countLoopF_spec (b mx : Nat) (hb : 1 ≤ b) (hsat : b ^ mx ≤ U256MAX) :
    ∀ fuel cnt idx, idx < fuel → cnt ≤ mx →
      idx < ∑ k ∈ Finset.Ico cnt (mx + 1), b ^ k →
      ∃ t, cnt ≤ t ∧ t ≤ mx ∧
        (∑ k ∈ Finset.Ico cnt t, b ^ k) ≤ idx ∧
        idx - (∑ k ∈ Finset.Ico cnt t, b ^ k) < b ^ t ∧
        countLoopF fuel b cnt idx (b ^ cnt) = (t, idx - ∑ k ∈ Finset.Ico cnt t, b ^ k) := by
  intro fuel
  induction fuel with
  | zero => intro cnt idx h _ _; omega
  | succ fuel ih =>
    intro cnt idx hfuel hcnt hlt
    by_cases hstop : b ^ cnt ≤ idx
    · have hcm : cnt < mx := by
        by_contra hc
        have he : mx = cnt := by omega
        rw [he] at hlt
        rw [Finset.sum_eq_sum_Ico_succ_bot (by omega : cnt < cnt + 1)] at hlt
        simp [Finset.Ico_self] at hlt
        omega
      have hpow1 : 1 ≤ b ^ cnt := Nat.one_le_pow _ _ (by omega)
      have hnext : satMul (b ^ cnt) b = b ^ (cnt + 1) := by
        have h1 : b ^ (cnt + 1) ≤ U256MAX :=
          le_trans (Nat.pow_le_pow_right (by omega) (by omega)) hsat
        simp only [satMul, ← pow_succ]
        exact min_eq_left h1
      have hsplit : ∑ k ∈ Finset.Ico cnt (mx + 1), b ^ k
          = b ^ cnt + ∑ k ∈ Finset.Ico (cnt + 1) (mx + 1), b ^ k :=
        Finset.sum_eq_sum_Ico_succ_bot (by omega) _
      obtain ⟨t, ht1, ht2, ht3, ht4, ht5⟩ :=
        ih (cnt + 1) (idx - b ^ cnt) (by omega) (by omega) (by omega)
      have hsplit2 : ∑ k ∈ Finset.Ico cnt t, b ^ k
          = b ^ cnt + ∑ k ∈ Finset.Ico (cnt + 1) t, b ^ k :=
        Finset.sum_eq_sum_Ico_succ_bot (by omega) _
      refine ⟨t, by omega, ht2, by omega, by omega, ?_⟩
      simp only [countLoopF]
      rw [if_pos ⟨hstop, hpow1⟩, hnext, ht5]
      have he : idx - b ^ cnt - ∑ k ∈ Finset.Ico (cnt + 1) t, b ^ k
          = idx - ∑ k ∈ Finset.Ico cnt t, b ^ k := by omega
      rw [he]
    · push_neg at hstop
      refine ⟨cnt, le_refl _, hcnt, by simp, by simpa using hstop, ?_⟩
      simp only [countLoopF]
      rw [if_neg (by omega)]
      simp

/-- `countLoop` run from the `Count` entry state. -/
theorem countLoop_spec (b mn mx idx : Nat) (hb : 1 ≤ b) (hsat : b ^ mx ≤ U256MAX)
    (hmn : mn ≤ mx) (hlt : idx < ∑ k ∈ Finset.Ico mn (mx + 1), b ^ k) :
    ∃ t, mn ≤ t ∧ t ≤ mx ∧ (∑ k ∈ Finset.Ico mn t, b ^ k) ≤ idx ∧
      idx - (∑ k ∈ Finset.Ico mn t, b ^ k) < b ^ t ∧
      countLoop b mn idx (b ^ mn) = (t, idx - ∑ k ∈ Finset.Ico mn t, b ^ k) :=
  countLoopF_spec b mx hb hsat (idx + 1) mn idx (by omega) hmn hlt

/-- Any fuel of at least `fuelOfL ns` computes the canonical list fold. -/
theorem writeLF_suff (f : Nat) (ctx : Ctx) (ns : List Node) (i : Nat)
    (h : fuelOfL ns ≤ f) :
    writeLF f ctx ns i = writeLF (fuelOfL ns) ctx ns i :=
  (writeF_suff f).2.1 ctx ns i h

/-- Any fuel of at least `k + 1 + fuelOf c` computes the digit loop. -/
theorem writeTimesF_suff (f : Nat) (ctx : Ctx) (c : Node) (b k idx : Nat)
    (h : k + 1 + fuelOf c ≤ f) :
    writeTimesF f ctx c b k idx = writeTimesF (k + 1 + fuelOf c) ctx c b k idx :=
  (writeF_suff f).2.2 ctx c b k idx h

/-- The digit loop of `Count` rendering: when every child rendering is
defined with fixed length `Lc`, the loop over `k` digits of an index
below `b^k` succeeds, consumes the index fully, and emits `k * Lc`
scalars. -/
theorem writeTimes_spec (ctx : Ctx) (c : Node) (b Lc : Nat)
    (hdef : ∀ m, m < b → ∃ w, writeN ctx c m = some w ∧ w.length = Lc) :
    ∀ k idx, idx < b ^ k →
      ∃ w, writeTimesF (k + 1 + fuelOf c) ctx c b k idx = some (w, 0) ∧
        w.length = k * Lc := by
  intro k
  induction k with
  | zero =>
    intro idx h
    have h0 : idx = 0 := by simpa using h
    subst h0
    rw [show 0 + 1 + fuelOf c = fuelOf c + 1 by omega]
    exact ⟨[], rfl, by simp⟩
  | succ k ih =>
    intro idx h
    have hb0 : 0 < b := by
      rcases Nat.eq_zero_or_pos b with h0 | h0
      · rw [h0] at h
        simp at h
      · exact h0
    obtain ⟨w1, hw1, hl1⟩ := hdef (idx % b) (Nat.mod_lt _ hb0)
    have hdiv : idx / b < b ^ k := by
      rw [Nat.div_lt_iff_lt_mul hb0]
      calc idx < b ^ (k + 1) := h
        _ = b ^ k * b := pow_succ b k
    obtain ⟨w2, hw2, hl2⟩ := ih (idx / b) hdiv
    rw [show k + 1 + 1 + fuelOf c = (k + 1 + fuelOf c) + 1 by omega]
    simp only [writeTimesF]
    rw [writeNF_suff _ _ _ _ (by omega), hw1, hw2]
    exact ⟨w1 ++ w2, rfl, by rw [List.length_append, hl1, hl2]; ring⟩

/-- The digit loop is injective in the residual index. -/
theorem writeTimes_inj (ctx : Ctx) (c : Node) (b Lc : Nat)
    (hdef : ∀ m, m < b → ∃ w, writeN ctx c m = some w ∧ w.length = Lc)
    (hinj : ∀ m m', m < b → m' < b → writeN ctx c m = writeN ctx c m' → m = m') :
    ∀ k idx idx', idx < b ^ k → idx' < b ^ k →
      writeTimesF (k + 1 + fuelOf c) ctx c b k idx
        = writeTimesF (k + 1 + fuelOf c) ctx c b k idx' → idx = idx' := by
  intro k
  induction k with
  | zero =>
    intro idx idx' h h' _
    have h0 : idx = 0 := by simpa using h
    have h0' : idx' = 0 := by simpa using h'
    omega
  | succ k ih =>
    intro idx idx' h h' heq
    have hb0 : 0 < b := by
      rcases Nat.eq_zero_or_pos b with h0 | h0
      · rw [h0] at h
        simp at h
      · exact h0
    obtain ⟨w1, hw1, hl1⟩ := hdef (idx % b) (Nat.mod_lt _ hb0)
    obtain ⟨w1', hw1', hl1'⟩ := hdef (idx' % b) (Nat.mod_lt _ hb0)
    have hdiv : idx / b < b ^ k := by
      rw [Nat.div_lt_iff_lt_mul hb0]
      calc idx < b ^ (k + 1) := h
        _ = b ^ k * b := pow_succ b k
    have hdiv' : idx' / b < b ^ k := by
      rw [Nat.div_lt_iff_lt_mul hb0]
      calc idx' < b ^ (k + 1) := h'
        _ = b ^ k * b := pow_succ b k
    obtain ⟨w2, hw2, hl2⟩ := writeTimes_spec ctx c b Lc hdef k (idx / b) hdiv
    obtain ⟨w2', hw2', hl2'⟩ := writeTimes_spec ctx c b Lc hdef k (idx' / b) hdiv'
    rw [show k + 1 + 1 + fuelOf c = (k + 1 + fuelOf c) + 1 by omega] at heq
    simp only [writeTimesF] at heq
    rw [writeNF_suff (k + 1 + fuelOf c) ctx c (idx % b) (by omega),
      writeNF_suff (k + 1 + fuelOf c) ctx c (idx' % b) (by omega),
      hw1, hw1', hw2, hw2'] at heq
    have heq2 : some ((w1 ++ w2 : Str), (0 : Nat)) = some ((w1' ++ w2' : Str), 0) := heq
    have heq3 := Option.some.inj heq2
    have hw : w1 ++ w2 = w1' ++ w2' := congrArg Prod.fst heq3
    obtain ⟨he1, he2⟩ := List.append_inj hw (by rw [hl1, hl1'])
    have hm : idx % b = idx' % b :=
      hinj _ _ (Nat.mod_lt _ hb0) (Nat.mod_lt _ hb0) (by rw [hw1, hw1', he1])
    have hd : idx / b = idx' / b := ih _ _ hdiv hdiv' (by rw [hw2, hw2', he2])
    calc idx = b * (idx / b) + idx % b := (Nat.div_add_mod idx b).symm
      _ = b * (idx' / b) + idx' % b := by rw [hd, hm]
      _ = idx' := Nat.div_add_mod idx' b

/-- Evaluation of `Node::write_to` on a `Count` node, given the results
of the subtract loop and the digit loop. -/
theorem writeN_count_eq (ctx : Ctx) (c : Node) (mn mx b i t r : Nat) (w : Str)
    (hb : sizeN ctx c = some b) (hb0 : ¬b = 0)
    (hpow : u256SatPow b mn = b ^ mn)
    (hcl : countLoop b mn i (b ^ mn) = (t, r)) (htm : t ≤ mx)
    (hwt : writeTimesF (t + 1 + fuelOf c) ctx c b t r = some (w, 0)) :
    writeN ctx (Node.count c mn mx) i = some w := by
  rw [writeN]
  rw [show fuelOf (Node.count c mn mx) = (fuelOf c + mx + 1) + 1 from rfl]
  simp only [writeNF]
  rw [hb]
  simp only [Option.bind_eq_bind, Option.some_bind]
  rw [if_neg hb0, hpow]
  simp only [hcl]
  rw [if_pos htm, writeTimesF_suff (fuelOf c + mx + 1) ctx c b t r (by omega)]
  rw [hwt]
  simp only [Option.bind_eq_bind, Option.some_bind]
  rfl

/-- The full characterization of a `Count` node over an injective
fixed-length body: the size is the geometric sum, every in-range index
renders (with `t` repetitions of the body for some `min ≤ t ≤ max`),
and rendering is injective on the index range. -/
theorem count_goodW (ctx : Ctx) (c : Node) (mn mx b Lc : Nat)
    (hb : sizeN ctx c = some b) (hb1 : 1 ≤ b)
    (hdef : ∀ m, m < b → ∃ w, writeN ctx c m = some w ∧ w.length = Lc)
    (hinj : ∀ m m', m < b → m' < b → writeN ctx c m = writeN ctx c m' → m = m')
    (hmn : mn ≤ mx) (hfit : mx + 1 < 2 ^ 32) (hsat : b ^ (mx + 1) ≤ U256MAX)
    (hLc : b = 1 → 1 ≤ Lc ∨ mn = mx) :
    sizeN ctx (Node.count c mn mx) = some (∑ k ∈ Finset.Icc mn mx, b ^ k) ∧
    1 ≤ ∑ k ∈ Finset.Icc mn mx, b ^ k ∧
    (∀ i, i < ∑ k ∈ Finset.Icc mn mx, b ^ k →
      ∃ w t, writeN ctx (Node.count c mn mx) i = some w ∧ mn ≤ t ∧ t ≤ mx ∧
        w.length = t * Lc) ∧
    (∀ i j, i < ∑ k ∈ Finset.Icc mn mx, b ^ k → j < ∑ k ∈ Finset.Icc mn mx, b ^ k →
      writeN ctx (Node.count c mn mx) i = writeN ctx (Node.count c mn mx) j →
      i = j) := by
  have hIco : ∑ k ∈ Finset.Ico mn (mx + 1), b ^ k = ∑ k ∈ Finset.Icc mn mx, b ^ k := by
    rw [Nat.Ico_succ_right]
  have hsatmx : b ^ mx ≤ U256MAX :=
    le_trans (Nat.pow_le_pow_right (by omega) (by omega)) hsat
  have hpowmn : u256SatPow b mn = b ^ mn :=
    u256SatPow_exact b mn
      (by
        have h2pow : (2 : Nat) ^ 32 ≤ 2 ^ 64 := Nat.pow_le_pow_right (by omega) (by omega)
        omega)
      (le_trans (Nat.pow_le_pow_right (by omega) (by omega)) hsat)
  have hMOD : U256MOD = U256MAX + 1 := by
    have : 1 ≤ U256MOD := Nat.pos_pow_of_pos 256 (by omega)
    simp only [U256MAX]
    omega
  have hsize : sizeN ctx (Node.count c mn mx)
      = some (∑ k ∈ Finset.Icc mn mx, b ^ k) :=
    sizeN_count_sum ctx c mn mx b hb hb1 hmn (by omega) (by omega)
  have hsum1 : 1 ≤ ∑ k ∈ Finset.Icc mn mx, b ^ k := by
    have hmem : mn ∈ Finset.Icc mn mx := Finset.mem_Icc.mpr ⟨le_refl mn, hmn⟩
    have hs : b ^ mn ≤ ∑ k ∈ Finset.Icc mn mx, b ^ k :=
      Finset.single_le_sum (fun k _ => Nat.zero_le (b ^ k)) hmem
    have hp : 1 ≤ b ^ mn := Nat.one_le_pow _ _ (by omega)
    omega
  refine ⟨hsize, hsum1, ?_, ?_⟩
  · intro i hi
    rw [← hIco] at hi
    obtain ⟨t, ht1, ht2, ht3, ht4, ht5⟩ := countLoop_spec b mn mx i hb1 hsatmx hmn hi
    obtain ⟨w, hwt, hwl⟩ := writeTimes_spec ctx c b Lc hdef t _ ht4
    exact ⟨w, t, writeN_count_eq ctx c mn mx b i t _ w hb (by omega) hpowmn ht5 ht2 hwt,
      ht1, ht2, hwl⟩
  · intro i j hi hj heq
    by_cases hS1 : ∑ k ∈ Finset.Icc mn mx, b ^ k ≤ 1
    · omega
    rw [← hIco] at hi hj
    obtain ⟨ti, hti1, hti2, hti3, hti4, hti5⟩ := countLoop_spec b mn mx i hb1 hsatmx hmn hi
    obtain ⟨tj, htj1, htj2, htj3, htj4, htj5⟩ := countLoop_spec b mn mx j hb1 hsatmx hmn hj
    obtain ⟨wi, hwi, hwil⟩ := writeTimes_spec ctx c b Lc hdef ti _ hti4
    obtain ⟨wj, hwj, hwjl⟩ := writeTimes_spec ctx c b Lc hdef tj _ htj4
    have hwni := writeN_count_eq ctx c mn mx b i ti _ wi hb (by omega) hpowmn hti5 hti2 hwi
    have hwnj := writeN_count_eq ctx c mn mx b j tj _ wj hb (by omega) hpowmn htj5 htj2 hwj
    rw [hwni, hwnj] at heq
    have hww : wi = wj := Option.some.inj heq
    have hLc1 : 1 ≤ Lc := by
      by_cases hb2 : 2 ≤ b
      · by_contra hc
        obtain ⟨w0, hw0, hl0⟩ := hdef 0 (by omega)
        obtain ⟨w1, hw1, hl1⟩ := hdef 1 (by omega)
        have he0 : w0 = [] := List.length_eq_zero.mp (by omega)
        have he1 : w1 = [] := List.length_eq_zero.mp (by omega)
        have : (0 : Nat) = 1 := hinj 0 1 (by omega) (by omega) (by
          rw [hw0, hw1, he0, he1])
        omega
      · have hbeq : b = 1 := by omega
        rcases hLc hbeq with h | h
        · exact h
        · exfalso
          rw [h] at hS1
          rw [Finset.Icc_self, Finset.sum_singleton, hbeq] at hS1
          simp at hS1
    have hteq : ti = tj := by
      have hmul : ti * Lc = tj * Lc := by rw [← hwil, ← hwjl, hww]
      exact Nat.eq_of_mul_eq_mul_right hLc1 hmul
    rw [← hteq] at htj3 htj4 hwj
    have hreq : i - ∑ k ∈ Finset.Ico mn ti, b ^ k
        = j - ∑ k ∈ Finset.Ico mn ti, b ^ k :=
      writeTimes_inj ctx c b Lc hdef hinj ti _ _ hti4 htj4
        (by rw [hwi, hwj, hww])
    omega

/-- The main fixed-shape induction: a `RigidP`/`RigidL` expression has
exactly the stated size, renders every in-range index to a string of
the stated fixed length, and renders injectively. -/
theorem rigid_main (f : Nat) :
    (∀ ctx n L S, fuelOf n ≤ f → RigidP ctx n L S →
      sizeN ctx n = some S ∧ 1 ≤ S ∧
      (∀ i, i < S → ∃ w, writeN ctx n i = some w ∧ w.length = L) ∧
      (∀ i j, i < S → j < S → writeN ctx n i = writeN ctx n j → i = j)) ∧
    (∀ ctx ns L S, fuelOfL ns ≤ f → RigidL ctx ns L S →
      sizeL ctx ns = some S ∧ 1 ≤ S ∧
      (∀ i, i < S → ∃ w, writeLF (fuelOfL ns) ctx ns i = some w ∧ w.length = L) ∧
      (∀ i j, i < S → j < S →
        writeLF (fuelOfL ns) ctx ns i = writeLF (fuelOfL ns) ctx ns j → i = j)) := by
  induction f using Nat.strong_induction_on with
  | _ f ih =>
  obtain rfl | ⟨g, rfl⟩ : f = 0 ∨ ∃ g, f = g + 1 := by
    rcases f with _ | g
    · exact Or.inl rfl
    · exact Or.inr ⟨g, rfl⟩
  · exact ⟨fun ctx n L S h _ => absurd h (by have := fuelOf_pos n; omega),
      fun ctx ns L S h _ => absurd h (by have := fuelOfL_pos ns; omega)⟩
  refine ⟨fun ctx n L S hf hr => ?_, fun ctx ns L S hf hr => ?_⟩
  · cases n with
    | literal s =>
      obtain ⟨hL, hS⟩ := hr
      subst hL
      subst hS
      refine ⟨rfl, by omega, ?_, ?_⟩
      · intro i hi
        exact ⟨s, rfl, rfl⟩
      · intro i j hi hj _
        omega
    | chars cs =>
      obtain ⟨hg, hne, hL, hcss⟩ := hr
      subst hL
      obtain ⟨S', hS', hp', hdefc, hmono⟩ := goodRanges_nth cs hg hne
      obtain rfl : S = S' := by
        rw [hcss] at hS'
        exact Option.some.inj hS'
      have hSle : S ≤ 0x110000 := goodRanges_S_le cs hg hne S hS'
      have h232 : (0x110000 : Nat) < 2 ^ 32 := by norm_num
      have hw : ∀ i, writeN ctx (Node.chars cs) i
          = if i < 2 ^ 32 then (charsNth cs i).map (fun c => [c]) else none :=
        fun i => rfl
      refine ⟨?_, hp', ?_, ?_⟩
      · have he : sizeN ctx (Node.chars cs)
            = (charsSumSize cs).bind (fun s => if s = 0 then none else some s) := rfl
        rw [he, hS']
        simp only [Option.some_bind]
        rw [if_neg (by omega)]
      · intro i hi
        obtain ⟨c, hc, _, _⟩ := hdefc i hi
        refine ⟨[c], ?_, rfl⟩
        rw [hw i, if_pos (by omega), hc]
        rfl
      · intro i j hi hj heq
        rcases Nat.lt_trichotomy i j with h | h | h
        · obtain ⟨ci, hci, _, _⟩ := hdefc i hi
          obtain ⟨cj, hcj, _, _⟩ := hdefc j hj
          have hlt := hmono i j ci cj h hj hci hcj
          rw [hw i, hw j, if_pos (by omega), if_pos (by omega), hci, hcj] at heq
          simp at heq
          omega
        · exact h
        · obtain ⟨ci, hci, _, _⟩ := hdefc i hi
          obtain ⟨cj, hcj, _, _⟩ := hdefc j hj
          have hlt := hmono j i cj ci h hi hcj hci
          rw [hw i, hw j, if_pos (by omega), if_pos (by omega), hci, hcj] at heq
          simp at heq
          omega
    | list ns =>
      have hfl : fuelOfL ns ≤ g := by
        simp only [fuelOf] at hf
        omega
      obtain ⟨h1, h2, h3, h4⟩ := (ih g (by omega)).2 ctx ns L S hfl hr
      have hwzero : ∀ i, writeN ctx (Node.list ns) i = writeLF (fuelOfL ns) ctx ns i :=
        fun i => rfl
      refine ⟨?_, h2, ?_, ?_⟩
      · have he : sizeN ctx (Node.list ns)
            = (sizeL ctx ns).bind (fun p => if p = 0 then none else some p) := rfl
        rw [he, h1]
        simp only [Option.some_bind]
        rw [if_neg (by omega)]
      · intro i hi
        obtain ⟨w, hw', hl⟩ := h3 i hi
        exact ⟨w, by rw [hwzero i, hw'], hl⟩
      · intro i j hi hj heq
        rw [hwzero i, hwzero j] at heq
        exact h4 i j hi hj heq
    | count c mn mx =>
      obtain ⟨Lc, b, hc, hmneq, hfit, hsat, hL, hS⟩ := hr
      have hfc : fuelOf c ≤ g := by
        simp only [fuelOf] at hf
        omega
      obtain ⟨hb, hb1, hdefc, hinjc⟩ := (ih g (by omega)).1 ctx c Lc b hfc hc
      obtain ⟨s1, s2, s3, s4⟩ := count_goodW ctx c mn mx b Lc hb hb1 hdefc hinjc
        (by omega) hfit hsat (fun _ => Or.inr hmneq)
      have hsum : ∑ k ∈ Finset.Icc mn mx, b ^ k = b ^ mx := by
        rw [hmneq, Finset.Icc_self, Finset.sum_singleton]
      rw [hsum] at s1 s2 s3 s4
      subst hS
      subst hL
      refine ⟨s1, s2, ?_, s4⟩
      intro i hi
      obtain ⟨w, t, hw', ht1, ht2, hl⟩ := s3 i hi
      have hteq : t = mx := by omega
      exact ⟨w, hw', by rw [hl, hteq]⟩
    | generator raw => exact hr.elim
  · cases ns with
    | nil =>
      obtain ⟨hL, hS⟩ := hr
      subst hL
      subst hS
      refine ⟨rfl, by omega, ?_, ?_⟩
      · intro i hi
        exact ⟨[], rfl, rfl⟩
      · intro i j hi hj _
        omega
    | cons n ns =>
      obtain ⟨L1, S1, L2, S2, hrn, hrns, hL, hS, hsat⟩ := hr
      have hfn : fuelOf n ≤ g := by
        simp only [fuelOfL] at hf
        omega
      have hfns : fuelOfL ns ≤ g := by
        simp only [fuelOfL] at hf
        omega
      obtain ⟨ha1, ha2, ha3, ha4⟩ := (ih g (by omega)).1 ctx n L1 S1 hfn hrn
      obtain ⟨hc1, hc2, hc3, hc4⟩ := (ih g (by omega)).2 ctx ns L2 S2 hfns hrns
      subst hL
      subst hS
      have hunf : ∀ i, writeLF (fuelOfL (n :: ns)) ctx (n :: ns) i
          = (sizeN ctx n).bind (fun sz =>
              if sz = 0 then none
              else (writeNF (fuelOf n + fuelOfL ns) ctx n (i % sz)).bind (fun s1 =>
                (writeLF (fuelOf n + fuelOfL ns) ctx ns (i / sz)).bind (fun s2 =>
                  some (s1 ++ s2)))) := fun i => rfl
      have hev : ∀ i, writeLF (fuelOfL (n :: ns)) ctx (n :: ns) i
          = (writeN ctx n (i % S1)).bind (fun s1 =>
              (writeLF (fuelOfL ns) ctx ns (i / S1)).bind (fun s2 =>
                some (s1 ++ s2))) := by
        intro i
        rw [hunf i, ha1]
        simp only [Option.some_bind]
        rw [if_neg (by omega),
          writeNF_suff (fuelOf n + fuelOfL ns) ctx n (i % S1) (by omega),
          writeLF_suff (fuelOf n + fuelOfL ns) ctx ns (i / S1) (by omega)]
      refine ⟨?_, by simpa using Nat.mul_le_mul ha2 hc2, ?_, ?_⟩
      · have hszeq : sizeL ctx (n :: ns)
            = (sizeL ctx ns).bind (fun p =>
                (sizeN ctx n).bind (fun s => some (satMul p s))) := rfl
        rw [hszeq, hc1, ha1]
        simp only [Option.some_bind]
        have hsm : satMul S2 S1 = S1 * S2 := by
          simp only [satMul]
          rw [Nat.mul_comm]
          exact min_eq_left hsat
        rw [hsm]
      · intro i hi
        have hmod : i % S1 < S1 := Nat.mod_lt _ (by omega)
        have hdiv : i / S1 < S2 := by
          rw [Nat.div_lt_iff_lt_mul (by omega)]
          rw [Nat.mul_comm S2 S1]
          exact hi
        obtain ⟨w1, hw1, hl1⟩ := ha3 _ hmod
        obtain ⟨w2, hw2, hl2⟩ := hc3 _ hdiv
        refine ⟨w1 ++ w2, ?_, by rw [List.length_append, hl1, hl2]⟩
        rw [hev i, hw1, hw2]
        rfl
      · intro i j hi hj heq
        have hmodi : i % S1 < S1 := Nat.mod_lt _ (by omega)
        have hmodj : j % S1 < S1 := Nat.mod_lt _ (by omega)
        have hdivi : i / S1 < S2 := by
          rw [Nat.div_lt_iff_lt_mul (by omega)]
          rw [Nat.mul_comm S2 S1]
          exact hi
        have hdivj : j / S1 < S2 := by
          rw [Nat.div_lt_iff_lt_mul (by omega)]
          rw [Nat.mul_comm S2 S1]
          exact hj
        obtain ⟨wi1, hwi1, hli1⟩ := ha3 _ hmodi
        obtain ⟨wi2, hwi2, hli2⟩ := hc3 _ hdivi
        obtain ⟨wj1, hwj1, hlj1⟩ := ha3 _ hmodj
        obtain ⟨wj2, hwj2, hlj2⟩ := hc3 _ hdivj
        rw [hev i, hev j, hwi1, hwi2, hwj1, hwj2] at heq
        have heq2 : some (wi1 ++ wi2) = some (wj1 ++ wj2) := heq
        have heq3 := Option.some.inj heq2
        obtain ⟨he1, he2⟩ := List.append_inj heq3 (by rw [hli1, hlj1])
        have hm := ha4 _ _ hmodi hmodj (by rw [hwi1, hwj1, he1])
        have hd := hc4 _ _ hdivi hdivj (by rw [hwi2, hwj2, he2])
        calc i = S1 * (i / S1) + i % S1 := (Nat.div_add_mod i S1).symm
          _ = S1 * (j / S1) + j % S1 := by rw [hm, hd]
          _ = j := Nat.div_add_mod j S1

/-- C2 (amended): for every sane expression — generator-free with
well-formed character classes, sizes below the `U256` saturation cap,
every `List` component of one fixed rendering length, and `Count`
bounds either degenerate (`min = max`) or, at the root, arbitrary
ordered bounds over a body of positive fixed length — `Node::size`
returns a positive size `S` and rendering is defined and injective on
the index range `[0, S)`, so the number of distinct rendered strings
equals the size.  (The counterexample theorem shows this fails for
general valid expressions.) -/
theorem write_injective_on_sane (ctx : Ctx) (n : Node) (h : Sane ctx n) :
    ∃ S, sizeN ctx n = some S ∧ 1 ≤ S ∧
      (∀ i, i < S → ∃ w, writeN ctx n i = some w) ∧
      (∀ i j, i < S → j < S → writeN ctx n i = writeN ctx n j → i = j) := by
  rcases h with ⟨L, S, hr⟩ | htop
  · obtain ⟨h1, h2, h3, h4⟩ := (rigid_main (fuelOf n)).1 ctx n L S (le_refl _) hr
    refine ⟨S, h1, h2, ?_, h4⟩
    intro i hi
    obtain ⟨w, hw', _⟩ := h3 i hi
    exact ⟨w, hw'⟩
  · cases n with
    | literal s => exact htop.elim
    | chars cs => exact htop.elim
    | list ns => exact htop.elim
    | generator raw => exact htop.elim
    | count c mn mx =>
      obtain ⟨Lc, b, hc, hLc1, hmn, hfit, hsat⟩ := htop
      obtain ⟨hb, hb1, hdefc, hinjc⟩ :=
        (rigid_main (fuelOf c)).1 ctx c Lc b (le_refl _) hc
      obtain ⟨s1, s2, s3, s4⟩ := count_goodW ctx c mn mx b Lc hb hb1 hdefc hinjc
        hmn hfit hsat (fun _ => Or.inl hLc1)
      refine ⟨_, s1, s2, ?_, s4⟩
      intro i hi
      obtain ⟨w, t, hw', _, _, _⟩ := s3 i hi
      exact ⟨w, hw'⟩

/-- C2 (amended, witness): the schema `[a-z]{8,10}` in the empty
context — a root `Count` with bounds `8 ≤ 10` over the fixed-length
class `[a-z]` — is sane, so its rendering is injective on its index
range. -/
theorem write_injective_on_sane_witness :
    ∃ S, sizeN emptyCtx (Node.count (Node.chars [⟨97, 122⟩]) 8 10) = some S ∧
      1 ≤ S ∧
      (∀ i, i < S →
        ∃ w, writeN emptyCtx (Node.count (Node.chars [⟨97, 122⟩]) 8 10) i = some w) ∧
      (∀ i j, i < S → j < S →
        writeN emptyCtx (Node.count (Node.chars [⟨97, 122⟩]) 8 10) i
          = writeN emptyCtx (Node.count (Node.chars [⟨97, 122⟩]) 8 10) j → i = j) :=
  write_injective_on_sane emptyCtx (Node.count (Node.chars [⟨97, 122⟩]) 8 10)
    (Or.inr ⟨1, 26, ⟨by decide, by simp, rfl, by decide⟩, by decide, by decide,
      by decide, by decide⟩)

/-- C3: the canonical-repr round trip fails.  `"(a[b]){2}"` parses to
`Count(List[Literal "a", [b]], 2, 2)`, whose canonical repr is
`"a[b]{2}"` — `ReprState::write` passes its nesting bit unchanged
through `Count`, so a `List` directly under a root `Count` is written
without the parentheses the grammar requires.  Re-parsing yields
`List[Literal "a", Count([b], 2, 2)]`, a different AST: the two parses
render index 0 as `"abab"` and `"abb"` respectively, so
`parse(repr(parse(s))) ≠ parse(s)`. -/
theorem repr_roundtrip_fails :
    parseSchema (str2n "(a[b]){2}") = some c3parsed ∧
    reprN (fun _ => true) emptyCtx false c3parsed = some (str2n "a[b]{2}") ∧
    parseSchema (str2n "a[b]{2}") = some c3reparsed ∧
    writeN emptyCtx c3parsed 0 = some (str2n "abab") ∧
    writeN emptyCtx c3reparsed 0 = some (str2n "abb") :=
  ⟨rfl, rfl, rfl, rfl, rfl⟩

end Onepass
